import Mathlib

/-!
Verification of the `DiGraph` directed-graph module (miasm2/core/graph.py).

The graph state is embedded shallowly: the Python node set becomes a
`Finset`, the edge list a `List (α × α)`, and the two adjacency
dictionaries become total functions `α → List α` (a missing dictionary key
is observationally identical to a key bound to the empty list for every
operation of the module, since keys are only ever created, never deleted,
and are always created bound to `[]`).  Fallible operations
(`list.remove` raising `ValueError`) return `Except`, with the error
branch carrying the state at the moment the exception is raised, so the
partial mutations Python performs before raising are preserved by the
model.  The worklist loops (`_reachable_nodes`, `find_path`,
`_compute_generic_dominators`) are embedded with an explicit fuel
parameter; the fuel passed by the public entry points is proved sufficient
below, which is the termination content of the corresponding claims.
-/

set_option maxHeartbeats 1000000

namespace MiasmGraph

structure DiGraph (α : Type) where
  nodes : Finset α
  edges : List (α × α)
  nodes_succ : α → List α
  nodes_pred : α → List α

namespace DiGraph

variable {α : Type} [DecidableEq α]

/-- `DiGraph.__init__`: empty node set, empty edge list, empty adjacency. -/
def empty : DiGraph α :=
  { nodes := ∅, edges := [], nodes_succ := fun _ => [], nodes_pred := fun _ => [] }

/-- `successors(node)`: the stored successor list (empty for unknown nodes,
mirroring the `StopIteration` guard of `successors_iter`). -/
def successors (g : DiGraph α) (node : α) : List α := g.nodes_succ node

/-- `predecessors(node)`: the stored predecessor list (empty for unknown
nodes, mirroring the `StopIteration` guard of `predecessors_iter`). -/
def predecessors (g : DiGraph α) (node : α) : List α := g.nodes_pred node

/-- `add_node(node)`: no-op when present, otherwise register the node with
empty successor and predecessor lists. -/
def add_node (g : DiGraph α) (node : α) : DiGraph α :=
  if node ∈ g.nodes then g
  else
    { nodes := insert node g.nodes
      edges := g.edges
      nodes_succ := Function.update g.nodes_succ node []
      nodes_pred := Function.update g.nodes_pred node [] }

/-- `add_edge(src, dst)`: auto-register missing endpoints, then append the
edge to the edge list and to the two adjacency lists. -/
def add_edge (g : DiGraph α) (src dst : α) : DiGraph α :=
  let g1 := if src ∈ g.nodes then g else g.add_node src
  let g2 := if dst ∈ g1.nodes then g1 else g1.add_node dst
  { nodes := g2.nodes
    edges := g2.edges ++ [(src, dst)]
    nodes_succ := Function.update g2.nodes_succ src (g2.nodes_succ src ++ [dst])
    nodes_pred := Function.update g2.nodes_pred dst (g2.nodes_pred dst ++ [src]) }

/-- `del_edge(src, dst)`: three sequential `list.remove` calls, each of
which removes the first occurrence and raises `ValueError` when the element
is absent.  The error branch carries the state reached when the exception
is raised (earlier removals are kept, as in the Python original). -/
def del_edge (g : DiGraph α) (src dst : α) : Except (DiGraph α) (DiGraph α) :=
  if (src, dst) ∈ g.edges then
    let g1 : DiGraph α := { g with edges := g.edges.erase (src, dst) }
    if dst ∈ g1.nodes_succ src then
      let g2 : DiGraph α :=
        { g1 with nodes_succ := Function.update g1.nodes_succ src ((g1.nodes_succ src).erase dst) }
      if src ∈ g2.nodes_pred dst then
        Except.ok
          { g2 with nodes_pred := Function.update g2.nodes_pred dst ((g2.nodes_pred dst).erase src) }
      else Except.error g2
    else Except.error g1
  else Except.error g

/-- `del_node(node)`: drop the node from the node set, then delete every
edge to it (iterating over a snapshot of its predecessor list) and every
remaining edge from it (snapshot of its successor list, taken after the
first loop, as in the source). -/
def del_node (g : DiGraph α) (node : α) : Except (DiGraph α) (DiGraph α) := do
  let g1 : DiGraph α :=
    if node ∈ g.nodes then { g with nodes := g.nodes.erase node } else g
  let g2 ← (g1.predecessors node).foldlM (fun h p => h.del_edge p node) g1
  (g2.successors node).foldlM (fun h s => h.del_edge node s) g2

/-- Well-formedness invariant of every graph built through the public
mutation API: the edge list and the two adjacency indices agree as
multisets, and every edge endpoint is a registered node. -/
def WF (g : DiGraph α) : Prop :=
  (∀ a b, g.edges.count (a, b) = (g.nodes_succ a).count b) ∧
    (∀ a b, g.edges.count (a, b) = (g.nodes_pred b).count a) ∧
    (∀ a b, (a, b) ∈ g.edges → a ∈ g.nodes ∧ b ∈ g.nodes)

/-- The adjacency-synchronisation part of `WF` alone (it does not mention
the node set, which `del_node` shrinks before cleaning up the edges, so it
is the invariant that survives the intermediate states of the cascade). -/
def Sync (g : DiGraph α) : Prop :=
  (∀ a b, g.edges.count (a, b) = (g.nodes_succ a).count b) ∧
    (∀ a b, g.edges.count (a, b) = (g.nodes_pred b).count a)

/-- `find_path` recursion (walking backward from `dst` through
predecessors), with explicit fuel.  The `done` dictionary is modelled as a
total function defaulting to `0`, matching `done.get(dst, 0)`; the
membership guard `dst in done` of the source is subsumed because a
natural-number count of an absent key is `0` and `0 > cycles_count` is
false. -/
def findPathAux (g : DiGraph α) (src : α) (cycles_count : Nat) :
    Nat → α → (α → Nat) → List (List α)
  | 0, _, _ => []
  | fuel + 1, dst, done =>
    if done dst > cycles_count then [[]]
    else if src = dst then [[src]]
    else
      (g.predecessors dst).flatMap fun node =>
        ((findPathAux g src cycles_count fuel node
              (Function.update done dst (done dst + 1))).filter
            (fun path => decide (path.head? = some src))).map
          (fun path => path ++ [dst])

/-- `find_path(src, dst, cycles_count)` with the default empty `done`
dictionary.  The fuel passed here is proved sufficient below
(`find_path_fuel_stable`), which is the termination content of the
recursion. -/
def find_path (g : DiGraph α) (src dst : α) (cycles_count : Nat) : List (List α) :=
  findPathAux g src cycles_count ((cycles_count + 1) * g.nodes.card + 1) dst (fun _ => 0)

/-- Specification-level notion of a path (walk) from `src` to `dst` in
the graph: a nonempty node sequence starting at `src`, ending at `dst`,
every consecutive pair of which is an edge. -/
def IsPath (g : DiGraph α) (src dst : α) (p : List α) : Prop :=
  p.head? = some src ∧ p.getLast? = some dst ∧ p.Chain' (fun a b => (a, b) ∈ g.edges)

/-- Specification-level reachability: the reflexive-transitive closure of
a neighbour function, starting at `start`. -/
inductive Reaches (next_cb : α → List α) (start : α) : α → Prop
  | refl : Reaches next_cb start start
  | step {a b : α} : Reaches next_cb start a → b ∈ next_cb a → Reaches next_cb start b

/-- Worklist measure for `find_path`: total remaining revisit budget over
the graph's nodes; it strictly decreases at every recursive call. -/
def fpMeasure (g : DiGraph α) (cycles_count : Nat) (done : α → Nat) : Nat :=
  g.nodes.sum (fun n => (cycles_count + 1) - min (done n) (cycles_count + 1))

/-- The `_reachable_nodes` worklist with explicit fuel.  Python's `todo`
set with its arbitrary-order `pop` is determinised as a list popped from
the front; duplicates in the list are harmless because of the `reachable`
membership guard, exactly as in the set-based original. -/
def reachAux (next_cb : α → List α) : Nat → List α → Finset α → List α
  | 0, _, _ => []
  | _ + 1, [], _ => []
  | fuel + 1, node :: todo, reachable =>
    if node ∈ reachable then reachAux next_cb fuel todo reachable
    else node :: reachAux next_cb fuel (todo ++ next_cb node) (insert node reachable)

/-- Fuel sufficient for `reachAux` over universe `U`: one step per todo
entry ever pushed (one initial entry plus the neighbour lists of the at
most `|U|` nodes that can be visited). -/
def reachFuel (U : Finset α) (next_cb : α → List α) : Nat :=
  1 + U.sum (fun n => 1 + (next_cb n).length)

/-- Worklist measure for `reachAux` over universe `U`: pending todo
entries plus the maximal number of entries the unvisited part of `U` can
still push.  It strictly decreases at every step. -/
def reachMeasure (U : Finset α) (next_cb : α → List α) (todo : List α)
    (reachable : Finset α) : Nat :=
  todo.length + (U \ reachable).sum (fun n => 1 + (next_cb n).length)

/-- `_reachable_nodes(head, next_cb)`: every node reachable from `head`
by following `next_cb`, yielded once each; `U` is the node set of the
graph, used only to size the fuel. -/
def reachable_nodes (U : Finset α) (head : α) (next_cb : α → List α) : List α :=
  reachAux next_cb (reachFuel (insert head U) next_cb) [head] ∅

/-- `reachable_sons(head)`: nodes reachable from `head` along successor
edges. -/
def reachable_sons (g : DiGraph α) (head : α) : List α :=
  reachable_nodes g.nodes head g.nodes_succ

/-- `reachable_parents(leaf)`: nodes reaching `leaf`, following
predecessor edges. -/
def reachable_parents (g : DiGraph α) (leaf : α) : List α :=
  reachable_nodes g.nodes leaf g.nodes_pred

/-- One iteration of the `new_dom` accumulation inside
`_compute_generic_dominators`: skip predecessors outside the universe,
seed `new_dom` with the first in-universe predecessor's set, intersect
with every further one (`none` plays the role of Python's `None`). -/
def interStep (nodesF : Finset α) (dominators : α → Option (Finset α))
    (new_dom : Option (Finset α)) (pred : α) : Option (Finset α) :=
  if pred ∈ nodesF then
    match new_dom with
    | none => some ((dominators pred).getD ∅)
    | some s => some (s ∩ (dominators pred).getD ∅)
  else new_dom

/-- The `new_dom` loop of `_compute_generic_dominators`: the intersection
of the dominator sets of the in-universe predecessors. -/
def interPreds (nodesF : Finset α) (dominators : α → Option (Finset α))
    (prev_list : List α) : Option (Finset α) :=
  prev_list.foldl (interStep nodesF dominators) none

/-- The fixed-point worklist of `_compute_generic_dominators` with
explicit fuel, the `todo` set determinised as a duplicate-free list
(`List.insert` is Python's `set.add`).  The dominator dictionary is a
partial map `α → Option (Finset α)` whose domain is the reachable
universe.  A `none` result models the `assert(new_dom is not None)`
failure (or exhausted fuel, proved unreachable for the fuel used by the
entry points). -/
def domLoop (nodesF : Finset α) (head : α) (prev_cb next_cb : α → List α) :
    Nat → List α → (α → Option (Finset α)) → Option (α → Option (Finset α))
  | 0, _, _ => none
  | _ + 1, [], dominators => some dominators
  | fuel + 1, node :: todo, dominators =>
    if node = head then domLoop nodesF head prev_cb next_cb fuel todo dominators
    else
      match interPreds nodesF dominators (prev_cb node) with
      | none => none
      | some nd =>
        if some (insert node nd) = dominators node then
          domLoop nodesF head prev_cb next_cb fuel todo dominators
        else
          domLoop nodesF head prev_cb next_cb fuel
            ((next_cb node).foldl (fun t succ => List.insert succ t) todo)
            (Function.update dominators node (some (insert node nd)))

/-- `_compute_generic_dominators(head, reachable_cb, prev_cb, next_cb)`:
restrict the universe to the nodes reachable through `reachable_cb`,
initialise every reachable node's candidate set to the full universe and
the head's to `{head}`, then iterate the worklist to the fixed point. -/
def compute_generic_dominators (U : Finset α) (head : α)
    (reachable_cb prev_cb next_cb : α → List α) : Option (α → Option (Finset α)) :=
  domLoop (reachable_nodes U head reachable_cb).toFinset head prev_cb next_cb
    (((reachable_nodes U head reachable_cb).length + 1) *
        ((reachable_nodes U head reachable_cb).length *
          (reachable_nodes U head reachable_cb).length) +
      (reachable_nodes U head reachable_cb).length + 1)
    (reachable_nodes U head reachable_cb)
    (Function.update
      (fun n => if n ∈ (reachable_nodes U head reachable_cb).toFinset
        then some (reachable_nodes U head reachable_cb).toFinset else none)
      head (some {head}))

/-- `compute_dominators(head)`: forward reachability, predecessors as the
"previous" direction, successors as the "next" direction. -/
def compute_dominators (g : DiGraph α) (head : α) : Option (α → Option (Finset α)) :=
  compute_generic_dominators g.nodes head g.nodes_succ g.nodes_pred g.nodes_succ

/-- `compute_postdominators(leaf)`: backward reachability, successors as
the "previous" direction, predecessors as the "next" direction. -/
def compute_postdominators (g : DiGraph α) (leaf : α) : Option (α → Option (Finset α)) :=
  compute_generic_dominators g.nodes leaf g.nodes_pred g.nodes_succ g.nodes_pred

/-- Invariant of the dominator worklist, stated generically over the
universe `nodesF`, the start node, the "previous" callback and a target
relation `T` (`T n D` reads "`D` dominates `n`" at the specification
level): the dictionary's keys are exactly the universe, the todo list is a
duplicate-free subset of the universe, the start node's entry is pinned to
its singleton, every set is an upper bound of `T` and a lower bound of its
own update target, and every node off the todo list satisfies its
fixed-point equation. -/
structure DomInv (nodesF : Finset α) (head : α) (prev_cb : α → List α)
    (T : α → α → Prop) (todo : List α) (dominators : α → Option (Finset α)) : Prop where
  keys : ∀ n, (dominators n).isSome ↔ n ∈ nodesF
  todo_nodup : todo.Nodup
  todo_sub : ∀ t ∈ todo, t ∈ nodesF
  head_mem : head ∈ nodesF
  head_dom : dominators head = some {head}
  upper : ∀ n ∈ nodesF, ∀ D, T n D → D ∈ (dominators n).getD ∅
  mono : ∀ n ∈ nodesF, n ≠ head →
    insert n ((interPreds nodesF dominators (prev_cb n)).getD ∅) ⊆ (dominators n).getD ∅
  fixed : ∀ n ∈ nodesF, n ≠ head → n ∉ todo →
    (dominators n).getD ∅ = insert n ((interPreds nodesF dominators (prev_cb n)).getD ∅)

/-- Termination measure of the dominator worklist: the total size of the
candidate sets (which only ever shrink), weighted so that one shrink pays
for all the todo entries it may enqueue, plus the pending todo entries. -/
def domPhi (nodesF : Finset α) (dominators : α → Option (Finset α)) (todo : List α) : Nat :=
  (nodesF.card + 1) * (nodesF.sum fun n => ((dominators n).getD ∅).card) + todo.length

/-- The graph obtained from `g` by reversing every edge (following the
spec's words for C2; edge reversal is not an operation of the module
itself): same nodes, every edge `(a,b)` becomes `(b,a)`, and the two
adjacency indices swap roles. -/
def reverse (g : DiGraph α) : DiGraph α :=
  { nodes := g.nodes
    edges := g.edges.map (fun e => (e.2, e.1))
    nodes_succ := g.nodes_pred
    nodes_pred := g.nodes_succ }

/-- A chain 0 → 1 → 2 built through the public API, used as a concrete
test graph. -/
def gChain : DiGraph Nat := (empty.add_edge 0 1).add_edge 1 2

/-- A graph with a duplicated (parallel) edge 0 → 1, built through the
public API. -/
def gDup : DiGraph Nat := (empty.add_edge 0 1).add_edge 0 1

/-- A fork 0 → 1, 0 → 2 built through the public API. -/
def gFork : DiGraph Nat := (empty.add_edge 0 1).add_edge 0 2

/-- A graph 0 → 1, 1 → 1 (self-loop), 1 → 2 built through the public
API. -/
def gLoop : DiGraph Nat := ((empty.add_edge 0 1).add_edge 1 1).add_edge 1 2

end DiGraph

end MiasmGraph

namespace MiasmGraph

namespace DiGraph

variable {α : Type} [DecidableEq α]

theorem WF_empty : (empty : DiGraph α).WF := by
  refine ⟨fun a b => ?_, fun a b => ?_, fun a b h => ?_⟩ <;> simp [empty] at *

theorem add_node_of_mem {g : DiGraph α} {node : α} (h : node ∈ g.nodes) :
    g.add_node node = g := by
  simp [add_node, h]

theorem mem_nodes_add_node {g : DiGraph α} {node : α} :
    node ∈ (g.add_node node).nodes := by
  by_cases h : node ∈ g.nodes <;> simp [add_node, h]

theorem mem_nodes_add_node_of_mem {g : DiGraph α} {x : α} (node : α) (h : x ∈ g.nodes) :
    x ∈ (g.add_node node).nodes := by
  by_cases hm : node ∈ g.nodes
  · simpa [add_node, hm] using h
  · simp only [add_node, if_neg hm, Finset.mem_insert]
    exact Or.inr h

theorem WF_add_node {g : DiGraph α} (hg : g.WF) (node : α) : (g.add_node node).WF := by
  obtain ⟨hs, hp, hn⟩ := hg
  by_cases h : node ∈ g.nodes
  · simpa [add_node, h] using ⟨hs, hp, hn⟩
  · refine ⟨fun a b => ?_, fun a b => ?_, fun a b hab => ?_⟩
    · simp only [add_node, if_neg h]
      rcases eq_or_ne a node with rfl | hne
      · have hno : ∀ c, (a, c) ∉ g.edges := fun c hmem => h (hn _ _ hmem).1
        simp [Function.update_same, List.count_eq_zero_of_not_mem (hno b)]
      · simp [Function.update_noteq hne, hs]
    · simp only [add_node, if_neg h]
      rcases eq_or_ne b node with rfl | hne
      · have hno : ∀ c, (c, b) ∉ g.edges := fun c hmem => h (hn _ _ hmem).2
        simp [Function.update_same, List.count_eq_zero_of_not_mem (hno a)]
      · simp [Function.update_noteq hne, hp]
    · simp only [add_node, if_neg h] at hab ⊢
      exact ⟨Finset.mem_insert_of_mem (hn _ _ hab).1, Finset.mem_insert_of_mem (hn _ _ hab).2⟩

theorem add_edge_eq (g : DiGraph α) (src dst : α) :
    g.add_edge src dst =
      { nodes := ((g.add_node src).add_node dst).nodes
        edges := ((g.add_node src).add_node dst).edges ++ [(src, dst)]
        nodes_succ := Function.update ((g.add_node src).add_node dst).nodes_succ src
          (((g.add_node src).add_node dst).nodes_succ src ++ [dst])
        nodes_pred := Function.update ((g.add_node src).add_node dst).nodes_pred dst
          (((g.add_node src).add_node dst).nodes_pred dst ++ [src]) } := by
  simp only [add_edge]
  by_cases h1 : src ∈ g.nodes
  · rw [add_node_of_mem h1]
    by_cases h2 : dst ∈ g.nodes
    · simp [h2, add_node_of_mem h2]
    · simp [h2]
  · simp only [h1, if_false]
    by_cases h2 : dst ∈ (g.add_node src).nodes
    · simp [h2, add_node_of_mem h2]
    · simp [h2]

theorem WF_add_edge {g : DiGraph α} (hg : g.WF) (src dst : α) : (g.add_edge src dst).WF := by
  rw [add_edge_eq]
  have h2 : ((g.add_node src).add_node dst).WF := WF_add_node (WF_add_node hg src) dst
  obtain ⟨hs, hp, hn⟩ := h2
  have hsrc : src ∈ ((g.add_node src).add_node dst).nodes :=
    mem_nodes_add_node_of_mem dst mem_nodes_add_node
  have hdst : dst ∈ ((g.add_node src).add_node dst).nodes := mem_nodes_add_node
  refine ⟨fun a b => ?_, fun a b => ?_, fun a b hab => ?_⟩
  · simp only [List.count_append]
    rcases eq_or_ne a src with rfl | hne
    · rw [Function.update_same, List.count_append, hs]
      rcases eq_or_ne b dst with rfl | hbe
      · simp
      · simp [List.count_singleton', hbe, Prod.ext_iff]
    · rw [Function.update_noteq hne, hs]
      simp [List.count_singleton', Prod.ext_iff, hne]
  · simp only [List.count_append]
    rcases eq_or_ne b dst with rfl | hne
    · rw [Function.update_same, List.count_append, hp]
      rcases eq_or_ne a src with rfl | hae
      · simp
      · simp [List.count_singleton', hae, Prod.ext_iff]
    · rw [Function.update_noteq hne, hp]
      simp [List.count_singleton', Prod.ext_iff, hne]
  · simp only [List.mem_append, List.mem_singleton] at hab
    rcases hab with hab | hab
    · exact hn _ _ hab
    · rw [Prod.ext_iff] at hab
      obtain ⟨rfl, rfl⟩ := hab
      exact ⟨hsrc, hdst⟩

theorem mem_succ_iff {g : DiGraph α} (hg : g.WF) (a b : α) :
    b ∈ g.nodes_succ a ↔ (a, b) ∈ g.edges := by
  rw [← List.count_pos_iff, ← List.count_pos_iff, hg.1 a b]

theorem mem_pred_iff {g : DiGraph α} (hg : g.WF) (a b : α) :
    a ∈ g.nodes_pred b ↔ (a, b) ∈ g.edges := by
  rw [← List.count_pos_iff, ← List.count_pos_iff, hg.2.1 a b]

theorem succ_eq_nil_of_not_mem {g : DiGraph α} (hg : g.WF) {n : α} (h : n ∉ g.nodes) :
    g.nodes_succ n = [] := by
  rcases List.eq_nil_or_concat (g.nodes_succ n) with hnil | ⟨l, b, hl⟩
  · exact hnil
  · exfalso
    have hb : b ∈ g.nodes_succ n := by rw [hl]; simp
    exact h ((hg.2.2 n b ((mem_succ_iff hg n b).mp hb)).1)

theorem pred_eq_nil_of_not_mem {g : DiGraph α} (hg : g.WF) {n : α} (h : n ∉ g.nodes) :
    g.nodes_pred n = [] := by
  rcases List.eq_nil_or_concat (g.nodes_pred n) with hnil | ⟨l, b, hl⟩
  · exact hnil
  · exfalso
    have hb : b ∈ g.nodes_pred n := by rw [hl]; simp
    exact h ((hg.2.2 b n ((mem_pred_iff hg b n).mp hb)).2)

theorem del_edge_of_not_mem {g : DiGraph α} {src dst : α} (h : (src, dst) ∉ g.edges) :
    g.del_edge src dst = Except.error g := by
  simp [del_edge, h]

theorem del_edge_of_mem {g : DiGraph α} (hg : g.WF) {src dst : α} (h : (src, dst) ∈ g.edges) :
    g.del_edge src dst = Except.ok
      { nodes := g.nodes
        edges := g.edges.erase (src, dst)
        nodes_succ := Function.update g.nodes_succ src ((g.nodes_succ src).erase dst)
        nodes_pred := Function.update g.nodes_pred dst ((g.nodes_pred dst).erase src) } := by
  have h1 : dst ∈ g.nodes_succ src := (mem_succ_iff hg src dst).mpr h
  have h2 : src ∈ g.nodes_pred dst := (mem_pred_iff hg src dst).mpr h
  simp [del_edge, h, h1, h2]

theorem WF_del_edge {g g' : DiGraph α} (hg : g.WF) {src dst : α}
    (h : g.del_edge src dst = Except.ok g') : g'.WF := by
  by_cases hm : (src, dst) ∈ g.edges
  · rw [del_edge_of_mem hg hm] at h
    obtain rfl := Except.ok.inj h
    obtain ⟨hs, hp, hn⟩ := hg
    refine ⟨fun a b => ?_, fun a b => ?_, fun a b hab => ?_⟩ <;> dsimp only
    · rcases eq_or_ne a src with rfl | hne
      · rw [Function.update_same]
        rcases eq_or_ne b dst with rfl | hbe
        · simp only [List.count_erase_self, hs]
        · rw [List.count_erase_of_ne hbe, List.count_erase_of_ne, hs]
          simp [Prod.ext_iff, hbe]
      · rw [Function.update_noteq hne, List.count_erase_of_ne, hs]
        simp [Prod.ext_iff, hne]
    · rcases eq_or_ne b dst with rfl | hne
      · rw [Function.update_same]
        rcases eq_or_ne a src with rfl | hae
        · simp only [List.count_erase_self, hp]
        · rw [List.count_erase_of_ne hae, List.count_erase_of_ne, hp]
          simp [Prod.ext_iff, hae]
      · rw [Function.update_noteq hne, List.count_erase_of_ne, hp]
        simp [Prod.ext_iff, hne]
    · exact hn a b (List.mem_of_mem_erase hab)
  · rw [del_edge_of_not_mem hm] at h
    exact absurd h (by simp)

theorem add_node_edges (g : DiGraph α) (n : α) : (g.add_node n).edges = g.edges := by
  by_cases h : n ∈ g.nodes <;> simp [add_node, h]

theorem add_node_nodes_succ {g : DiGraph α} (hg : g.WF) (n : α) :
    (g.add_node n).nodes_succ = g.nodes_succ := by
  by_cases h : n ∈ g.nodes
  · simp [add_node, h]
  · funext m
    rcases eq_or_ne m n with rfl | hne
    · simp [add_node, if_neg h, Function.update_same, succ_eq_nil_of_not_mem hg h]
    · simp [add_node, if_neg h, Function.update_noteq hne]

theorem add_node_nodes_pred {g : DiGraph α} (hg : g.WF) (n : α) :
    (g.add_node n).nodes_pred = g.nodes_pred := by
  by_cases h : n ∈ g.nodes
  · simp [add_node, h]
  · funext m
    rcases eq_or_ne m n with rfl | hne
    · simp [add_node, if_neg h, Function.update_same, pred_eq_nil_of_not_mem hg h]
    · simp [add_node, if_neg h, Function.update_noteq hne]

theorem add_edge_edges {g : DiGraph α} (src dst : α) :
    (g.add_edge src dst).edges = g.edges ++ [(src, dst)] := by
  rw [add_edge_eq]
  simp [add_node_edges]

theorem add_edge_nodes_succ {g : DiGraph α} (hg : g.WF) (src dst : α) :
    (g.add_edge src dst).nodes_succ =
      Function.update g.nodes_succ src (g.nodes_succ src ++ [dst]) := by
  rw [add_edge_eq]
  simp only [add_node_nodes_succ (WF_add_node hg src) dst, add_node_nodes_succ hg src]

theorem add_edge_nodes_pred {g : DiGraph α} (hg : g.WF) (src dst : α) :
    (g.add_edge src dst).nodes_pred =
      Function.update g.nodes_pred dst (g.nodes_pred dst ++ [src]) := by
  rw [add_edge_eq]
  simp only [add_node_nodes_pred (WF_add_node hg src) dst, add_node_nodes_pred hg src]

/-- C7 (amended): after `add_edge(a,b)`, `b ∈ successors(a)` and
`a ∈ predecessors(b)`; and when `(a,b)` is not already in the edge
sequence, `add_edge(a,b)` immediately followed by `del_edge(a,b)` restores
the pre-insertion edge list, `successors(a)` and `predecessors(b)`
exactly.  (When a parallel copy of `(a,b)` pre-exists, `del_edge` removes
the first occurrence, so the sequences are only restored as multisets; see
the counterexample.) -/
theorem add_edge_del_edge_spec (g : DiGraph α) (hg : g.WF) (a b : α) :
    (b ∈ (g.add_edge a b).successors a ∧ a ∈ (g.add_edge a b).predecessors b) ∧
    ((a, b) ∉ g.edges → ∃ g', (g.add_edge a b).del_edge a b = Except.ok g' ∧
      g'.edges = g.edges ∧ g'.successors a = g.successors a ∧
      g'.predecessors b = g.predecessors b) := by
  have hsucc : (g.add_edge a b).nodes_succ a = g.nodes_succ a ++ [b] := by
    rw [add_edge_nodes_succ hg, Function.update_same]
  have hpred : (g.add_edge a b).nodes_pred b = g.nodes_pred b ++ [a] := by
    rw [add_edge_nodes_pred hg, Function.update_same]
  constructor
  · constructor
    · rw [successors, hsucc]; simp
    · rw [predecessors, hpred]; simp
  · intro hne
    have hmem : (a, b) ∈ (g.add_edge a b).edges := by
      rw [add_edge_edges]; simp
    refine ⟨_, del_edge_of_mem (WF_add_edge hg a b) hmem, ?_, ?_, ?_⟩
    · show ((g.add_edge a b).edges).erase (a, b) = g.edges
      rw [add_edge_edges, List.erase_append_right _ hne]
      simp
    · show Function.update (g.add_edge a b).nodes_succ a
        (((g.add_edge a b).nodes_succ a).erase b) a = g.successors a
      rw [Function.update_same, hsucc, List.erase_append_right, List.erase_cons_head]
      · simp [successors]
      · rw [mem_succ_iff hg]
        exact hne
    · show Function.update (g.add_edge a b).nodes_pred b
        (((g.add_edge a b).nodes_pred b).erase a) b = g.predecessors b
      rw [Function.update_same, hpred, List.erase_append_right, List.erase_cons_head]
      · simp [predecessors]
      · rw [mem_pred_iff hg]
        exact hne

/-- C7 witness: the amended statement instantiated on the chain graph with
the fresh edge (0, 2). -/
theorem add_edge_del_edge_spec_witness :
    ((0 : ℕ), 2) ∉ gChain.edges ∧
    (2 ∈ (gChain.add_edge 0 2).successors 0 ∧ 0 ∈ (gChain.add_edge 0 2).predecessors 2) ∧
    (∃ g', (gChain.add_edge 0 2).del_edge 0 2 = Except.ok g' ∧
      g'.edges = gChain.edges ∧ g'.successors 0 = gChain.successors 0 ∧
      g'.predecessors 2 = gChain.predecessors 2) := by
  have hwf : gChain.WF := WF_add_edge (WF_add_edge WF_empty 0 1) 1 2
  have h := add_edge_del_edge_spec gChain hwf 0 2
  have hne : ((0 : ℕ), 2) ∉ gChain.edges := by decide
  exact ⟨hne, h.1, h.2 hne⟩

/-- C7 counterexample: on the fork graph (edges 0 → 1, 0 → 2) the sequence
`add_edge(0,1); del_edge(0,1)` leaves `successors(0) = [2, 1]`, not the
original `[1, 2]`: `del_edge` removes the first occurrence, so the
pre-insertion adjacency sequences are not restored exactly. -/
theorem add_edge_del_edge_not_exact :
    gFork.successors 0 = [1, 2] ∧
    ((gFork.add_edge 0 1).del_edge 0 1).toOption.map (fun h => h.successors 0) =
      some [2, 1] ∧
    ((gFork.add_edge 0 1).del_edge 0 1).toOption.map (fun h => h.successors 0) ≠
      some (gFork.successors 0) := by
  refine ⟨by decide, by decide, by decide⟩

/-- C9: under the API invariant, `del_edge(src,dst)` fails (with the state
unchanged) exactly when `(src,dst)` is not in the edge sequence, and on
success removes exactly one occurrence of `(src,dst)` from the edge
sequence, one occurrence of `dst` from `successors(src)` and one
occurrence of `src` from `predecessors(dst)`, leaving everything else
unchanged. -/
theorem del_edge_strict_spec (g : DiGraph α) (hg : g.WF) (src dst : α) :
    ((src, dst) ∉ g.edges → g.del_edge src dst = Except.error g) ∧
    ((src, dst) ∈ g.edges → ∃ g', g.del_edge src dst = Except.ok g' ∧
      g'.edges.count (src, dst) + 1 = g.edges.count (src, dst) ∧
      (∀ e, e ≠ (src, dst) → g'.edges.count e = g.edges.count e) ∧
      (g'.successors src).count dst + 1 = (g.successors src).count dst ∧
      (∀ x, x ≠ dst → (g'.successors src).count x = (g.successors src).count x) ∧
      (∀ m, m ≠ src → g'.successors m = g.successors m) ∧
      (g'.predecessors dst).count src + 1 = (g.predecessors dst).count src ∧
      (∀ x, x ≠ src → (g'.predecessors dst).count x = (g.predecessors dst).count x) ∧
      (∀ m, m ≠ dst → g'.predecessors m = g.predecessors m) ∧
      g'.nodes = g.nodes) := by
  refine ⟨fun h => del_edge_of_not_mem h, fun h => ?_⟩
  have hcount : 0 < g.edges.count (src, dst) := List.count_pos_iff.mpr h
  have hsc : 0 < (g.nodes_succ src).count dst := by rw [← hg.1]; exact hcount
  have hpc : 0 < (g.nodes_pred dst).count src := by rw [← hg.2.1]; exact hcount
  refine ⟨_, del_edge_of_mem hg h, ?_, ?_, ?_, ?_, ?_, ?_, ?_, ?_, rfl⟩
  · show (g.edges.erase (src, dst)).count (src, dst) + 1 = g.edges.count (src, dst)
    rw [List.count_erase_self]
    omega
  · intro e he
    show (g.edges.erase (src, dst)).count e = g.edges.count e
    rw [List.count_erase_of_ne he]
  · show (Function.update g.nodes_succ src ((g.nodes_succ src).erase dst) src).count dst + 1 =
      (g.nodes_succ src).count dst
    rw [Function.update_same, List.count_erase_self]
    omega
  · intro x hx
    show (Function.update g.nodes_succ src ((g.nodes_succ src).erase dst) src).count x =
      (g.nodes_succ src).count x
    rw [Function.update_same, List.count_erase_of_ne hx]
  · intro m hm
    show Function.update g.nodes_succ src ((g.nodes_succ src).erase dst) m = g.nodes_succ m
    rw [Function.update_noteq hm]
  · show (Function.update g.nodes_pred dst ((g.nodes_pred dst).erase src) dst).count src + 1 =
      (g.nodes_pred dst).count src
    rw [Function.update_same, List.count_erase_self]
    omega
  · intro x hx
    show (Function.update g.nodes_pred dst ((g.nodes_pred dst).erase src) dst).count x =
      (g.nodes_pred dst).count x
    rw [Function.update_same, List.count_erase_of_ne hx]
  · intro m hm
    show Function.update g.nodes_pred dst ((g.nodes_pred dst).erase src) m = g.nodes_pred m
    rw [Function.update_noteq hm]

/-- C9 witness: instantiated on the duplicated-edge graph, both for a
present edge and (via the first conjunct at another input) an absent
edge. -/
theorem del_edge_strict_spec_witness :
    ((0 : ℕ), 1) ∈ gDup.edges ∧
    (∃ g', gDup.del_edge 0 1 = Except.ok g' ∧
      g'.edges.count (0, 1) + 1 = gDup.edges.count (0, 1) ∧
      (∀ e, e ≠ ((0 : ℕ), (1 : ℕ)) → g'.edges.count e = gDup.edges.count e) ∧
      (g'.successors 0).count 1 + 1 = (gDup.successors 0).count 1 ∧
      (∀ x, x ≠ 1 → (g'.successors 0).count x = (gDup.successors 0).count x) ∧
      (∀ m, m ≠ 0 → g'.successors m = gDup.successors m) ∧
      (g'.predecessors 1).count 0 + 1 = (gDup.predecessors 1).count 0 ∧
      (∀ x, x ≠ 0 → (g'.predecessors 1).count x = (gDup.predecessors 1).count x) ∧
      (∀ m, m ≠ 1 → g'.predecessors m = gDup.predecessors m) ∧
      g'.nodes = gDup.nodes) := by
  have hwf : gDup.WF := WF_add_edge (WF_add_edge WF_empty 0 1) 0 1
  have hm : ((0 : ℕ), 1) ∈ gDup.edges := by decide
  exact ⟨hm, (del_edge_strict_spec gDup hwf 0 1).2 hm⟩

/-- C10 (amended): after `add_node(n)`, `n` is a node; when `n` was not
already present its successor and predecessor lists are empty; when `n`
was already present the call is a no-op leaving the graph unchanged (so
pre-existing adjacency of `n` survives, contrary to the unconditional
claim; see the counterexample). -/
theorem add_node_spec (g : DiGraph α) (n : α) :
    n ∈ (g.add_node n).nodes ∧
    (n ∉ g.nodes → (g.add_node n).successors n = [] ∧ (g.add_node n).predecessors n = []) ∧
    (n ∈ g.nodes → g.add_node n = g) := by
  refine ⟨mem_nodes_add_node, fun h => ?_, fun h => add_node_of_mem h⟩
  constructor
  · show (g.add_node n).nodes_succ n = []
    simp [add_node, if_neg h, Function.update_same]
  · show (g.add_node n).nodes_pred n = []
    simp [add_node, if_neg h, Function.update_same]

/-- C10 witness: the amended statement instantiated on the chain graph
with a fresh node 5 and with the existing node 0. -/
theorem add_node_spec_witness :
    ((5 : ℕ) ∉ gChain.nodes ∧ (gChain.add_node 5).successors 5 = [] ∧
      (gChain.add_node 5).predecessors 5 = []) ∧
    ((0 : ℕ) ∈ gChain.nodes ∧ gChain.add_node 0 = gChain) := by
  have h5 := add_node_spec gChain 5
  have h0 := add_node_spec gChain 0
  have hn5 : (5 : ℕ) ∉ gChain.nodes := by decide
  have hn0 : (0 : ℕ) ∈ gChain.nodes := by decide
  exact ⟨⟨hn5, (h5.2.1 hn5).1, (h5.2.1 hn5).2⟩, ⟨hn0, h0.2.2 hn0⟩⟩

/-- C10 counterexample: node 0 of the chain graph already has a successor;
`add_node(0)` is a no-op, so `successors(0)` is not reset to `[]` as the
unconditional claim demands. -/
theorem add_node_not_reset :
    (gChain.add_node 0).successors 0 = [1] ∧
    (gChain.add_node 0).successors 0 ≠ [] := by
  refine ⟨by decide, by decide⟩

theorem findPathAux_sound {g : DiGraph α} (hg : g.WF) (src : α) (K : Nat) :
    ∀ fuel dst done, ∀ p ∈ findPathAux g src K fuel dst done, p = [] ∨ IsPath g src dst p := by
  intro fuel
  induction fuel with
  | zero => intro dst done p hp; simp [findPathAux] at hp
  | succ fuel ih =>
    intro dst done p hp
    rw [findPathAux] at hp
    by_cases h1 : done dst > K
    · rw [if_pos h1] at hp
      simp only [List.mem_singleton] at hp
      exact Or.inl hp
    · rw [if_neg h1] at hp
      by_cases h2 : src = dst
      · subst h2
        rw [if_pos rfl] at hp
        simp only [List.mem_singleton] at hp
        subst hp
        exact Or.inr ⟨rfl, rfl, List.chain'_singleton src⟩
      · rw [if_neg h2, List.mem_flatMap] at hp
        obtain ⟨node, hnode, hp⟩ := hp
        rw [List.mem_map] at hp
        obtain ⟨q, hq, rfl⟩ := hp
        rw [List.mem_filter, decide_eq_true_eq] at hq
        obtain ⟨hq, hhead⟩ := hq
        rcases ih node _ q hq with rfl | hpath
        · simp at hhead
        · refine Or.inr ⟨?_, List.getLast?_concat q, ?_⟩
          · rw [List.head?_append_of_ne_nil]
            · exact hhead
            · intro hnil
              rw [hnil] at hhead
              simp at hhead
          · rw [List.chain'_append]
            refine ⟨hpath.2.2, List.chain'_singleton dst, ?_⟩
            intro x hx y hy
            simp only [List.head?_cons, Option.mem_def, Option.some.injEq] at hy
            subst hy
            rw [hpath.2.1] at hx
            simp only [Option.mem_def, Option.some.injEq] at hx
            subst hx
            exact (mem_pred_iff hg _ _).mp hnode

theorem findPathAux_count (g : DiGraph α) (src : α) (K : Nat) :
    ∀ fuel dst done, (∀ m, done m ≤ K + 1) →
      ∀ p ∈ findPathAux g src K fuel dst done, ∀ n, p.count n + done n ≤ K + 1 := by
  intro fuel
  induction fuel with
  | zero => intro dst done _ p hp; simp [findPathAux] at hp
  | succ fuel ih =>
    intro dst done hdone p hp n
    rw [findPathAux] at hp
    by_cases h1 : done dst > K
    · rw [if_pos h1] at hp
      simp only [List.mem_singleton] at hp
      subst hp
      simpa using hdone n
    · rw [if_neg h1] at hp
      by_cases h2 : src = dst
      · subst h2
        rw [if_pos rfl] at hp
        simp only [List.mem_singleton] at hp
        subst hp
        rw [List.count_singleton']
        rcases eq_or_ne src n with rfl | hne
        · rw [if_pos rfl]
          omega
        · rw [if_neg hne]
          simpa using hdone n
      · rw [if_neg h2, List.mem_flatMap] at hp
        obtain ⟨node, hnode, hp⟩ := hp
        rw [List.mem_map] at hp
        obtain ⟨q, hq, rfl⟩ := hp
        rw [List.mem_filter, decide_eq_true_eq] at hq
        have hdone' : ∀ m, Function.update done dst (done dst + 1) m ≤ K + 1 := by
          intro m
          rcases eq_or_ne m dst with rfl | hne
          · rw [Function.update_same]
            omega
          · rw [Function.update_noteq hne]
            exact hdone m
        have hrec := ih node _ hdone' q hq.1 n
        rw [List.count_append, List.count_singleton']
        rcases eq_or_ne dst n with rfl | hne
        · rw [Function.update_same] at hrec
          rw [if_pos rfl]
          omega
        · rw [Function.update_noteq (Ne.symm hne)] at hrec
          rw [if_neg hne]
          omega

theorem count_le_one_of_nodup {β : Type} [BEq β] [LawfulBEq β] {l : List β} (h : l.Nodup)
    (e : β) : l.count e ≤ 1 := by
  induction l with
  | nil => simp
  | cons x xs ih =>
    rw [List.count_cons]
    rcases List.nodup_cons.mp h with ⟨hx, hxs⟩
    by_cases he : x = e
    · subst he
      have hz : xs.count x = 0 := by
        rw [List.count_eq_zero]
        exact hx
      simp [hz]
    · simp only [beq_iff_eq, he, if_false]
      have := ih hxs
      omega

theorem pred_nodup_of_edges_nodup {g : DiGraph α} (hg : g.WF) (hdup : g.edges.Nodup) (a : α) :
    (g.nodes_pred a).Nodup := by
  rw [List.nodup_iff_count_le_one]
  intro x
  rw [← hg.2.1 x a]
  exact count_le_one_of_nodup hdup (x, a)

theorem findPathAux_nodup {g : DiGraph α} (hg : g.WF) (hdup : g.edges.Nodup) (src : α)
    (K : Nat) : ∀ fuel dst done, (findPathAux g src K fuel dst done).Nodup := by
  intro fuel
  induction fuel with
  | zero => intro dst done; simp [findPathAux]
  | succ fuel ih =>
    intro dst done
    rw [findPathAux]
    by_cases h1 : done dst > K
    · rw [if_pos h1]
      simp
    · rw [if_neg h1]
      by_cases h2 : src = dst
      · subst h2
        rw [if_pos rfl]
        simp
      · rw [if_neg h2, List.nodup_flatMap]
        constructor
        · intro node _
          exact ((ih node _).filter _).map fun p q h => List.append_cancel_right h
        · refine List.Pairwise.imp_of_mem ?_ (pred_nodup_of_edges_nodup hg hdup dst)
          intro n₁ n₂ _ _ hne p hp1 hp2
          rw [List.mem_map] at hp1 hp2
          obtain ⟨q₁, hq₁, rfl⟩ := hp1
          obtain ⟨q₂, hq₂, heq⟩ := hp2
          have hqeq : q₂ = q₁ := List.append_cancel_right heq
          rw [hqeq] at hq₂
          rw [List.mem_filter, decide_eq_true_eq] at hq₁ hq₂
          have hl₁ : q₁.getLast? = some n₁ := by
            rcases findPathAux_sound hg src K _ _ _ q₁ hq₁.1 with hq | hpath
            · rw [hq] at hq₁
              simp at hq₁
            · exact hpath.2.1
          have hl₂ : q₁.getLast? = some n₂ := by
            rcases findPathAux_sound hg src K _ _ _ q₁ hq₂.1 with hq | hpath
            · rw [hq] at hq₂
              simp at hq₂
            · exact hpath.2.1
          rw [hl₁] at hl₂
          exact hne (Option.some.inj hl₂)

theorem mem_nodes_of_pred_ne_nil {g : DiGraph α} (hg : g.WF) {dst : α}
    (h : g.nodes_pred dst ≠ []) : dst ∈ g.nodes := by
  rcases List.eq_nil_or_concat (g.nodes_pred dst) with hnil | ⟨l, b, hl⟩
  · exact absurd hnil h
  · have hb : b ∈ g.nodes_pred dst := by rw [hl]; simp
    exact (hg.2.2 b dst ((mem_pred_iff hg b dst).mp hb)).2

theorem fpMeasure_update {g : DiGraph α} {K : Nat} {done : α → Nat} {dst : α}
    (hmem : dst ∈ g.nodes) (hle : done dst ≤ K) :
    fpMeasure g K (Function.update done dst (done dst + 1)) + 1 = fpMeasure g K done := by
  unfold fpMeasure
  rw [Finset.sum_eq_add_sum_diff_singleton hmem
      (fun n => (K + 1) - min (Function.update done dst (done dst + 1) n) (K + 1)),
    Finset.sum_eq_add_sum_diff_singleton hmem (fun n => (K + 1) - min (done n) (K + 1))]
  have hcong : ∑ x ∈ g.nodes \ {dst},
      ((K + 1) - min (Function.update done dst (done dst + 1) x) (K + 1)) =
      ∑ x ∈ g.nodes \ {dst}, ((K + 1) - min (done x) (K + 1)) := by
    refine Finset.sum_congr rfl ?_
    intro x hx
    rw [Finset.mem_sdiff, Finset.mem_singleton] at hx
    rw [Function.update_noteq hx.2]
  rw [hcong, Function.update_same]
  have h1 : min (done dst + 1) (K + 1) = done dst + 1 := by omega
  have h2 : min (done dst) (K + 1) = done dst := by omega
  rw [h1, h2]
  omega

theorem findPathAux_fuel_stable {g : DiGraph α} (hg : g.WF) (src : α) (K : Nat) :
    ∀ fuel₁ fuel₂ dst done, fpMeasure g K done < fuel₁ → fpMeasure g K done < fuel₂ →
      findPathAux g src K fuel₁ dst done = findPathAux g src K fuel₂ dst done := by
  intro fuel₁
  induction fuel₁ with
  | zero => intro fuel₂ dst done h1 _; omega
  | succ fuel₁ ih =>
    intro fuel₂ dst done h1 h2
    obtain ⟨fuel₂, rfl⟩ : ∃ f, fuel₂ = f + 1 := ⟨fuel₂ - 1, by omega⟩
    rw [findPathAux, findPathAux]
    by_cases hb1 : done dst > K
    · simp only [if_pos hb1]
    · simp only [if_neg hb1]
      by_cases hb2 : src = dst
      · simp only [if_pos hb2]
      · simp only [if_neg hb2]
        by_cases hpred : g.predecessors dst = []
        · rw [hpred]
          rfl
        · have hdst : dst ∈ g.nodes := mem_nodes_of_pred_ne_nil hg hpred
          have hstep := @fpMeasure_update _ _ g K done dst hdst (by omega)
          have hrec : ∀ node,
              findPathAux g src K fuel₁ node (Function.update done dst (done dst + 1)) =
                findPathAux g src K fuel₂ node (Function.update done dst (done dst + 1)) :=
            fun node => ih fuel₂ node _ (by omega) (by omega)
          have hfun :
              (fun node =>
                ((findPathAux g src K fuel₁ node
                      (Function.update done dst (done dst + 1))).filter
                    (fun path => decide (path.head? = some src))).map
                  (fun path => path ++ [dst])) =
              (fun node =>
                ((findPathAux g src K fuel₂ node
                      (Function.update done dst (done dst + 1))).filter
                    (fun path => decide (path.head? = some src))).map
                  (fun path => path ++ [dst])) := by
            funext node
            rw [hrec node]
          rw [hfun]

theorem find_path_ne_nil {g : DiGraph α} {src dst : α} {K : Nat} :
    ∀ p ∈ g.find_path src dst K, p ≠ [] := by
  intro p hp
  rw [find_path, findPathAux] at hp
  rw [if_neg (by simp : ¬ ((fun (_ : α) => 0) dst > K))] at hp
  by_cases h : src = dst
  · rw [if_pos h] at hp
    simp only [List.mem_singleton] at hp
    subst hp
    simp
  · rw [if_neg h, List.mem_flatMap] at hp
    obtain ⟨node, _, hp⟩ := hp
    rw [List.mem_map] at hp
    obtain ⟨q, _, rfl⟩ := hp
    simp

/-- C5 (amended): every element of `find_path(src, dst, K)` is a path from
`src` to `dst` whose consecutive pairs are edges; the returned paths are
pairwise distinct provided the edge sequence contains no duplicate edge
(with parallel edges the same path is returned once per parallel copy —
see the counterexample); when no path exists the result is empty; and when
`src = dst` the result is exactly the single-node path `[[src]]`. -/
theorem find_path_spec (g : DiGraph α) (hg : g.WF) (src dst : α) (K : Nat) :
    (∀ p ∈ g.find_path src dst K, IsPath g src dst p) ∧
    (g.edges.Nodup → (g.find_path src dst K).Nodup) ∧
    ((¬ ∃ p, IsPath g src dst p) → g.find_path src dst K = []) ∧
    (src = dst → g.find_path src dst K = [[src]]) := by
  have hsound : ∀ p ∈ g.find_path src dst K, IsPath g src dst p := by
    intro p hp
    rcases findPathAux_sound hg src K _ dst _ p hp with rfl | hpath
    · exact absurd rfl (find_path_ne_nil _ hp)
    · exact hpath
  refine ⟨hsound, ?_, ?_, ?_⟩
  · intro hdup
    exact findPathAux_nodup hg hdup src K _ dst _
  · intro hno
    rw [List.eq_nil_iff_forall_not_mem]
    intro p hp
    exact hno ⟨p, hsound p hp⟩
  · intro h
    subst h
    rw [find_path, findPathAux]
    rw [if_neg (by simp : ¬ ((fun (_ : α) => 0) src > K)), if_pos rfl]

/-- C5 witness: on the chain graph 0 → 1 → 2 the enumeration is
duplicate-free, and with `src = dst` it returns exactly the single-node
path. -/
theorem find_path_spec_witness :
    gChain.edges.Nodup ∧ (gChain.find_path 0 2 0).Nodup ∧
      gChain.find_path 0 0 0 = [[0]] := by
  have hwf : gChain.WF := WF_add_edge (WF_add_edge WF_empty 0 1) 1 2
  have h1 := find_path_spec gChain hwf 0 2 0
  have h2 := find_path_spec gChain hwf 0 0 0
  have hdup : gChain.edges.Nodup := by decide
  exact ⟨hdup, h1.2.1 hdup, h2.2.2.2 rfl⟩

/-- C5 counterexample: with a duplicated edge 0 → 1 the call
`find_path(0, 1, 0)` returns the same path twice — the returned elements
are not pairwise distinct, contrary to the claim. -/
theorem find_path_duplicate_paths :
    gDup.find_path 0 1 0 = [[0, 1], [0, 1]] ∧ ¬ (gDup.find_path 0 1 0).Nodup := by
  refine ⟨by decide, by decide⟩

/-- C6: on any API-built graph containing a self-loop `(m, m)` (and in
fact on any API-built graph), `find_path(src, dst, 0)` terminates — any
fuel at least the bound used by `find_path` yields the same, stable result
— and every returned path visits each node at most `cycles_count + 1 = 1`
time, so the looping node is never revisited along a branch. -/
theorem find_path_self_loop_spec (g : DiGraph α) (hg : g.WF) (m src dst : α)
    (hm : (m, m) ∈ g.edges) :
    (∀ fuel, (0 + 1) * g.nodes.card + 1 ≤ fuel →
      findPathAux g src 0 fuel dst (fun _ => 0) = g.find_path src dst 0) ∧
    (∀ p ∈ g.find_path src dst 0, ∀ n, p.count n ≤ 1) := by
  have hmeas : fpMeasure g 0 (fun _ => 0) = g.nodes.card := by
    unfold fpMeasure
    simp
  constructor
  · intro fuel hf
    rw [find_path]
    exact findPathAux_fuel_stable hg src 0 fuel _ dst _ (by omega) (by omega)
  · intro p hp n
    have := findPathAux_count g src 0 _ dst _ (fun _ => by omega) p hp n
    omega

/-- C6 witness: the graph 0 → 1, 1 → 1, 1 → 2 with its self-loop at the
intermediate node 1; fuel 4 is the bound `(0+1)*card+1` and the
enumeration from 0 to 2 visits node 1 exactly once. -/
theorem find_path_self_loop_spec_witness :
    ((1 : ℕ), 1) ∈ gLoop.edges ∧
      findPathAux gLoop 0 0 4 2 (fun _ => 0) = gLoop.find_path 0 2 0 ∧
      gLoop.find_path 0 2 0 = [[0, 1, 2]] := by
  have hwf : gLoop.WF := WF_add_edge (WF_add_edge (WF_add_edge WF_empty 0 1) 1 1) 1 2
  have hm : ((1 : ℕ), 1) ∈ gLoop.edges := by decide
  have h := find_path_self_loop_spec gLoop hwf 1 0 2 hm
  exact ⟨hm, h.1 4 (by decide), by decide⟩

theorem Reaches.trans {next_cb : α → List α} {a b c : α} (h1 : Reaches next_cb a b)
    (h2 : Reaches next_cb b c) : Reaches next_cb a c := by
  induction h2 with
  | refl => exact h1
  | step _ hs ih => exact Reaches.step ih hs

theorem reachAux_sound {next_cb : α → List α} :
    ∀ fuel todo vis, ∀ x ∈ reachAux next_cb fuel todo vis,
      x ∉ vis ∧ ∃ t ∈ todo, Reaches next_cb t x := by
  intro fuel
  induction fuel with
  | zero => intro todo vis x hx; simp [reachAux] at hx
  | succ fuel ih =>
    intro todo vis x hx
    match todo with
    | [] => simp [reachAux] at hx
    | node :: todo =>
      rw [reachAux] at hx
      by_cases hn : node ∈ vis
      · rw [if_pos hn] at hx
        obtain ⟨h1, t, ht, h2⟩ := ih todo vis x hx
        exact ⟨h1, t, List.mem_cons_of_mem _ ht, h2⟩
      · rw [if_neg hn] at hx
        rcases List.mem_cons.mp hx with rfl | hx'
        · exact ⟨hn, x, List.mem_cons_self _ _, Reaches.refl⟩
        · obtain ⟨h1, t, ht, h2⟩ := ih _ _ x hx'
          refine ⟨fun hv => h1 (Finset.mem_insert_of_mem hv), ?_⟩
          rcases List.mem_append.mp ht with ht' | ht'
          · exact ⟨t, List.mem_cons_of_mem _ ht', h2⟩
          · exact ⟨node, List.mem_cons_self _ _,
              Reaches.trans (Reaches.step Reaches.refl ht') h2⟩

theorem reachAux_nodup {next_cb : α → List α} :
    ∀ fuel todo vis, (reachAux next_cb fuel todo vis).Nodup := by
  intro fuel
  induction fuel with
  | zero => intro todo vis; simp [reachAux]
  | succ fuel ih =>
    intro todo vis
    match todo with
    | [] => simp [reachAux]
    | node :: todo =>
      rw [reachAux]
      by_cases hn : node ∈ vis
      · rw [if_pos hn]
        exact ih _ _
      · rw [if_neg hn]
        rw [List.nodup_cons]
        refine ⟨fun hmem => ?_, ih _ _⟩
        exact (reachAux_sound _ _ _ _ hmem).1 (Finset.mem_insert_self _ _)

theorem reachMeasure_skip {U : Finset α} {next_cb : α → List α} {node : α} {todo : List α}
    {vis : Finset α} :
    reachMeasure U next_cb todo vis + 1 = reachMeasure U next_cb (node :: todo) vis := by
  unfold reachMeasure
  rw [List.length_cons]
  omega

theorem reachMeasure_step {U : Finset α} {next_cb : α → List α} {node : α} {todo : List α}
    {vis : Finset α} (hnodeU : node ∈ U) (hn : node ∉ vis) :
    reachMeasure U next_cb (todo ++ next_cb node) (insert node vis) + 2 =
      reachMeasure U next_cb (node :: todo) vis := by
  unfold reachMeasure
  rw [List.length_append, List.length_cons]
  have hsd : U \ insert node vis = (U \ vis).erase node := by
    ext x
    simp only [Finset.mem_sdiff, Finset.mem_erase, Finset.mem_insert]
    tauto
  rw [hsd]
  have hnode_mem : node ∈ U \ vis := Finset.mem_sdiff.mpr ⟨hnodeU, hn⟩
  have hsum : (∑ x ∈ (U \ vis).erase node, (1 + (next_cb x).length)) +
      (1 + (next_cb node).length) = ∑ x ∈ U \ vis, (1 + (next_cb x).length) :=
    Finset.sum_erase_add (U \ vis) _ hnode_mem
  omega

theorem reachAux_complete_todo {U : Finset α} {next_cb : α → List α}
    (hU : ∀ u ∈ U, ∀ s ∈ next_cb u, s ∈ U) :
    ∀ fuel todo vis, reachMeasure U next_cb todo vis ≤ fuel → (∀ t ∈ todo, t ∈ U) →
      ∀ t ∈ todo, t ∈ vis ∨ t ∈ reachAux next_cb fuel todo vis := by
  intro fuel
  induction fuel with
  | zero =>
    intro todo vis hm _ t ht
    exfalso
    have hpos : 0 < todo.length := List.length_pos.mpr (List.ne_nil_of_mem ht)
    unfold reachMeasure at hm
    omega
  | succ fuel ih =>
    intro todo vis hm htodo t ht
    match todo with
    | [] => simp at ht
    | node :: todo =>
      rw [reachAux]
      by_cases hn : node ∈ vis
      · rw [if_pos hn]
        have hm' : reachMeasure U next_cb todo vis ≤ fuel := by
          have := @reachMeasure_skip _ _ U next_cb node todo vis
          omega
        rcases List.mem_cons.mp ht with rfl | ht'
        · exact Or.inl hn
        · exact ih todo vis hm' (fun u hu => htodo u (List.mem_cons_of_mem _ hu)) t ht'
      · rw [if_neg hn]
        have hnodeU : node ∈ U := htodo node (List.mem_cons_self _ _)
        have hm' : reachMeasure U next_cb (todo ++ next_cb node) (insert node vis) ≤ fuel := by
          have := @reachMeasure_step _ _ U next_cb node todo vis hnodeU hn
          omega
        have htodo' : ∀ u ∈ todo ++ next_cb node, u ∈ U := by
          intro u hu
          rcases List.mem_append.mp hu with h | h
          · exact htodo u (List.mem_cons_of_mem _ h)
          · exact hU node hnodeU u h
        rcases List.mem_cons.mp ht with rfl | ht'
        · exact Or.inr (List.mem_cons_self _ _)
        · rcases ih _ _ hm' htodo' t (List.mem_append_left _ ht') with h | h
          · rcases Finset.mem_insert.mp h with rfl | h'
            · exact Or.inr (List.mem_cons_self _ _)
            · exact Or.inl h'
          · exact Or.inr (List.mem_cons_of_mem _ h)

theorem reachAux_closed {U : Finset α} {next_cb : α → List α}
    (hU : ∀ u ∈ U, ∀ s ∈ next_cb u, s ∈ U) :
    ∀ fuel todo vis, reachMeasure U next_cb todo vis ≤ fuel → (∀ t ∈ todo, t ∈ U) →
      ∀ v ∈ reachAux next_cb fuel todo vis, ∀ s ∈ next_cb v,
        s ∈ vis ∨ s ∈ reachAux next_cb fuel todo vis := by
  intro fuel
  induction fuel with
  | zero => intro todo vis _ _ v hv; simp [reachAux] at hv
  | succ fuel ih =>
    intro todo vis hm htodo v hv s hs
    match todo with
    | [] => simp [reachAux] at hv
    | node :: todo =>
      rw [reachAux] at hv ⊢
      by_cases hn : node ∈ vis
      · rw [if_pos hn] at hv ⊢
        have hm' : reachMeasure U next_cb todo vis ≤ fuel := by
          have := @reachMeasure_skip _ _ U next_cb node todo vis
          omega
        exact ih todo vis hm' (fun u hu => htodo u (List.mem_cons_of_mem _ hu)) v hv s hs
      · rw [if_neg hn] at hv ⊢
        have hnodeU : node ∈ U := htodo node (List.mem_cons_self _ _)
        have hm' : reachMeasure U next_cb (todo ++ next_cb node) (insert node vis) ≤ fuel := by
          have := @reachMeasure_step _ _ U next_cb node todo vis hnodeU hn
          omega
        have htodo' : ∀ u ∈ todo ++ next_cb node, u ∈ U := by
          intro u hu
          rcases List.mem_append.mp hu with h | h
          · exact htodo u (List.mem_cons_of_mem _ h)
          · exact hU node hnodeU u h
        rcases List.mem_cons.mp hv with rfl | hv'
        · have hstodo : s ∈ todo ++ next_cb v := List.mem_append_right _ hs
          rcases reachAux_complete_todo hU fuel _ _ hm' htodo' s hstodo with h | h
          · rcases Finset.mem_insert.mp h with rfl | h'
            · exact Or.inr (List.mem_cons_self _ _)
            · exact Or.inl h'
          · exact Or.inr (List.mem_cons_of_mem _ h)
        · rcases ih _ _ hm' htodo' v hv' s hs with h | h
          · rcases Finset.mem_insert.mp h with rfl | h'
            · exact Or.inr (List.mem_cons_self _ _)
            · exact Or.inl h'
          · exact Or.inr (List.mem_cons_of_mem _ h)

theorem reachAux_fuel_stable {U : Finset α} {next_cb : α → List α}
    (hU : ∀ u ∈ U, ∀ s ∈ next_cb u, s ∈ U) :
    ∀ fuel₁ fuel₂ todo vis, reachMeasure U next_cb todo vis ≤ fuel₁ →
      reachMeasure U next_cb todo vis ≤ fuel₂ → (∀ t ∈ todo, t ∈ U) →
      reachAux next_cb fuel₁ todo vis = reachAux next_cb fuel₂ todo vis := by
  intro fuel₁
  induction fuel₁ with
  | zero =>
    intro fuel₂ todo vis hm₁ _ _
    match todo with
    | [] =>
      match fuel₂ with
      | 0 => rfl
      | _ + 1 => rw [reachAux, reachAux]
    | node :: todo =>
      exfalso
      unfold reachMeasure at hm₁
      rw [List.length_cons] at hm₁
      omega
  | succ fuel₁ ih =>
    intro fuel₂ todo vis hm₁ hm₂ htodo
    match todo with
    | [] =>
      match fuel₂ with
      | 0 => rw [reachAux, reachAux]
      | _ + 1 => rw [reachAux, reachAux]
    | node :: todo =>
      have hpos : 1 ≤ reachMeasure U next_cb (node :: todo) vis := by
        unfold reachMeasure
        rw [List.length_cons]
        omega
      obtain ⟨fuel₂, rfl⟩ : ∃ f, fuel₂ = f + 1 := ⟨fuel₂ - 1, by omega⟩
      rw [reachAux, reachAux]
      by_cases hn : node ∈ vis
      · simp only [if_pos hn]
        have hms := @reachMeasure_skip _ _ U next_cb node todo vis
        exact ih fuel₂ todo vis (by omega) (by omega)
          (fun u hu => htodo u (List.mem_cons_of_mem _ hu))
      · simp only [if_neg hn]
        have hnodeU : node ∈ U := htodo node (List.mem_cons_self _ _)
        have hms := @reachMeasure_step _ _ U next_cb node todo vis hnodeU hn
        have htodo' : ∀ u ∈ todo ++ next_cb node, u ∈ U := by
          intro u hu
          rcases List.mem_append.mp hu with h | h
          · exact htodo u (List.mem_cons_of_mem _ h)
          · exact hU node hnodeU u h
        rw [ih fuel₂ _ _ (by omega) (by omega) htodo']

theorem reachable_nodes_main {U : Finset α} {next_cb : α → List α} {head : α}
    (hU : ∀ u ∈ insert head U, ∀ s ∈ next_cb u, s ∈ insert head U) :
    (reachable_nodes U head next_cb).Nodup ∧
    (∀ n, n ∈ reachable_nodes U head next_cb ↔ Reaches next_cb head n) ∧
    (∀ fuel, reachFuel (insert head U) next_cb ≤ fuel →
      reachAux next_cb fuel [head] ∅ = reachable_nodes U head next_cb) := by
  have hmeas : reachMeasure (insert head U) next_cb [head] ∅ = reachFuel (insert head U) next_cb := by
    unfold reachMeasure reachFuel
    simp
  have htodo0 : ∀ t ∈ [head], t ∈ insert head U := by
    intro t ht
    rcases List.mem_singleton.mp ht with rfl
    exact Finset.mem_insert_self _ _
  refine ⟨reachAux_nodup _ _ _, fun n => ⟨?_, ?_⟩, fun fuel hf => ?_⟩
  · intro hn
    obtain ⟨_, t, ht, hreach⟩ := reachAux_sound _ _ _ n hn
    rcases List.mem_singleton.mp ht with rfl
    exact hreach
  · intro hreach
    induction hreach with
    | refl =>
      rcases reachAux_complete_todo hU _ _ _ (le_of_eq hmeas) htodo0 head
          (List.mem_cons_self _ _) with h | h
      · exact absurd h (Finset.not_mem_empty _)
      · exact h
    | step _ hs ih =>
      rcases reachAux_closed hU _ _ _ (le_of_eq hmeas) htodo0 _ ih _ hs with h | h
      · exact absurd h (Finset.not_mem_empty _)
      · exact h
  · exact reachAux_fuel_stable hU fuel _ [head] ∅ (by omega) (le_of_eq hmeas) htodo0

/-- C4: `reachable_sons(h)` yields, each exactly once (it is
duplicate-free and contains `h`), precisely the nodes in the
reflexive-transitive closure of the successor relation from `h`, on every
API-built graph including cyclic ones — any fuel at least the bound used
by the entry point yields the same, stable result; symmetrically
`reachable_parents(l)` yields the predecessor closure of `l`. -/
theorem reachable_nodes_correct (g : DiGraph α) (hg : g.WF) (h l : α) :
    ((g.reachable_sons h).Nodup ∧ h ∈ g.reachable_sons h ∧
      (∀ n, n ∈ g.reachable_sons h ↔ Reaches g.successors h n) ∧
      (∀ fuel, reachFuel (insert h g.nodes) g.nodes_succ ≤ fuel →
        reachAux g.nodes_succ fuel [h] ∅ = g.reachable_sons h)) ∧
    ((g.reachable_parents l).Nodup ∧ l ∈ g.reachable_parents l ∧
      (∀ n, n ∈ g.reachable_parents l ↔ Reaches g.predecessors l n)) := by
  have hUs : ∀ u ∈ insert h g.nodes, ∀ s ∈ g.nodes_succ u, s ∈ insert h g.nodes := by
    intro u _ s hs
    exact Finset.mem_insert_of_mem (hg.2.2 u s ((mem_succ_iff hg u s).mp hs)).2
  have hUp : ∀ u ∈ insert l g.nodes, ∀ s ∈ g.nodes_pred u, s ∈ insert l g.nodes := by
    intro u _ s hs
    exact Finset.mem_insert_of_mem (hg.2.2 s u ((mem_pred_iff hg s u).mp hs)).1
  obtain ⟨hnds, hiffs, hstabs⟩ := @reachable_nodes_main _ _ g.nodes g.nodes_succ h hUs
  obtain ⟨hndp, hiffp, _⟩ := @reachable_nodes_main _ _ g.nodes g.nodes_pred l hUp
  exact ⟨⟨hnds, (hiffs h).mpr Reaches.refl, hiffs, hstabs⟩,
    ⟨hndp, (hiffp l).mpr Reaches.refl, hiffp⟩⟩

/-- C4 witness: the chain graph: `reachable_sons(0)` is duplicate-free,
contains 0, and the closure characterisation instantiated at node 2. -/
theorem reachable_nodes_correct_witness :
    (gChain.reachable_sons 0).Nodup ∧ 0 ∈ gChain.reachable_sons 0 ∧
      (2 ∈ gChain.reachable_sons 0 ↔ Reaches gChain.successors 0 2) ∧
      (gChain.reachable_parents 2).Nodup := by
  have hwf : gChain.WF := WF_add_edge (WF_add_edge WF_empty 0 1) 1 2
  have h := reachable_nodes_correct gChain hwf 0 2
  exact ⟨h.1.1, h.1.2.1, h.1.2.2.1 2, h.2.1⟩

theorem interPreds_of_all_not_mem {nodesF : Finset α} {dominators : α → Option (Finset α)} :
    ∀ {l : List α}, (∀ p ∈ l, p ∉ nodesF) → interPreds nodesF dominators l = none := by
  intro l
  induction l with
  | nil => intro _; rfl
  | cons p l ih =>
    intro h
    unfold interPreds at ih ⊢
    rw [List.foldl_cons,
      show interStep nodesF dominators none p = none by
        simp [interStep, h p (List.mem_cons_self _ _)]]
    exact ih fun q hq => h q (List.mem_cons_of_mem _ hq)

theorem interFoldSome {nodesF : Finset α} {dominators : α → Option (Finset α)} :
    ∀ (l : List α) (t : Finset α), ∃ s, l.foldl (interStep nodesF dominators) (some t) = some s ∧
      ∀ x, x ∈ s ↔ x ∈ t ∧ ∀ p ∈ l, p ∈ nodesF → x ∈ (dominators p).getD ∅ := by
  intro l
  induction l with
  | nil => intro t; exact ⟨t, rfl, by simp⟩
  | cons p l ih =>
    intro t
    rw [List.foldl_cons]
    by_cases hp : p ∈ nodesF
    · rw [show interStep nodesF dominators (some t) p = some (t ∩ (dominators p).getD ∅) by
        simp [interStep, hp]]
      obtain ⟨s, hs, hchar⟩ := ih (t ∩ (dominators p).getD ∅)
      refine ⟨s, hs, fun x => ?_⟩
      rw [hchar x, Finset.mem_inter]
      constructor
      · rintro ⟨⟨hxt, hxp⟩, hrest⟩
        refine ⟨hxt, fun q hq hqF => ?_⟩
        rcases List.mem_cons.mp hq with rfl | hq'
        · exact hxp
        · exact hrest q hq' hqF
      · rintro ⟨hxt, hall⟩
        exact ⟨⟨hxt, hall p (List.mem_cons_self _ _) hp⟩,
          fun q hq hqF => hall q (List.mem_cons_of_mem _ hq) hqF⟩
    · rw [show interStep nodesF dominators (some t) p = some t by simp [interStep, hp]]
      obtain ⟨s, hs, hchar⟩ := ih t
      refine ⟨s, hs, fun x => ?_⟩
      rw [hchar x]
      constructor
      · rintro ⟨hxt, hrest⟩
        refine ⟨hxt, fun q hq hqF => ?_⟩
        rcases List.mem_cons.mp hq with rfl | hq'
        · exact absurd hqF hp
        · exact hrest q hq' hqF
      · rintro ⟨hxt, hall⟩
        exact ⟨hxt, fun q hq hqF => hall q (List.mem_cons_of_mem _ hq) hqF⟩

theorem interPreds_some {nodesF : Finset α} {dominators : α → Option (Finset α)} :
    ∀ {l : List α}, (∃ p ∈ l, p ∈ nodesF) →
      ∃ s, interPreds nodesF dominators l = some s ∧
        ∀ x, x ∈ s ↔ ∀ p ∈ l, p ∈ nodesF → x ∈ (dominators p).getD ∅ := by
  intro l
  induction l with
  | nil =>
    rintro ⟨p, hp, _⟩
    simp at hp
  | cons p l ih =>
    rintro ⟨q, hq, hqF⟩
    unfold interPreds at ih ⊢
    rw [List.foldl_cons]
    by_cases hp : p ∈ nodesF
    · rw [show interStep nodesF dominators none p = some ((dominators p).getD ∅) by
        simp [interStep, hp]]
      obtain ⟨s, hs, hchar⟩ := interFoldSome l ((dominators p).getD ∅)
      refine ⟨s, hs, fun x => ?_⟩
      rw [hchar x]
      constructor
      · rintro ⟨hxp, hrest⟩ q' hq' hq'F
        rcases List.mem_cons.mp hq' with rfl | h
        · exact hxp
        · exact hrest q' h hq'F
      · intro hall
        exact ⟨hall p (List.mem_cons_self _ _) hp,
          fun q' hq' hq'F => hall q' (List.mem_cons_of_mem _ hq') hq'F⟩
    · rw [show interStep nodesF dominators none p = none by simp [interStep, hp]]
      have hql : q ∈ l := by
        rcases List.mem_cons.mp hq with rfl | h
        · exact absurd hqF hp
        · exact h
      obtain ⟨s, hs, hchar⟩ := ih ⟨q, hql, hqF⟩
      refine ⟨s, hs, fun x => ?_⟩
      rw [hchar x]
      constructor
      · intro hall q' hq' hq'F
        rcases List.mem_cons.mp hq' with rfl | h
        · exact absurd hq'F hp
        · exact hall q' h hq'F
      · intro hall
        exact fun q' hq' hq'F => hall q' (List.mem_cons_of_mem _ hq') hq'F

theorem interFold_congr {nodesF : Finset α} {dom₁ dom₂ : α → Option (Finset α)} :
    ∀ (l : List α) (acc : Option (Finset α)), (∀ p ∈ l, p ∈ nodesF → dom₁ p = dom₂ p) →
      l.foldl (interStep nodesF dom₁) acc = l.foldl (interStep nodesF dom₂) acc := by
  intro l
  induction l with
  | nil => intro acc _; rfl
  | cons p l ih =>
    intro acc h
    rw [List.foldl_cons, List.foldl_cons]
    have hstep : interStep nodesF dom₁ acc p = interStep nodesF dom₂ acc p := by
      unfold interStep
      by_cases hp : p ∈ nodesF
      · rw [if_pos hp, if_pos hp, h p (List.mem_cons_self _ _) hp]
      · rw [if_neg hp, if_neg hp]
    rw [hstep]
    exact ih _ fun q hq hqF => h q (List.mem_cons_of_mem _ hq) hqF

theorem interPreds_congr {nodesF : Finset α} {dom₁ dom₂ : α → Option (Finset α)} {l : List α}
    (h : ∀ p ∈ l, p ∈ nodesF → dom₁ p = dom₂ p) :
    interPreds nodesF dom₁ l = interPreds nodesF dom₂ l :=
  interFold_congr l none h

theorem interPreds_mono {nodesF : Finset α} {dom₁ dom₂ : α → Option (Finset α)} {l : List α}
    (hex : ∃ p ∈ l, p ∈ nodesF)
    (h : ∀ p ∈ l, p ∈ nodesF → (dom₁ p).getD ∅ ⊆ (dom₂ p).getD ∅) :
    (interPreds nodesF dom₁ l).getD ∅ ⊆ (interPreds nodesF dom₂ l).getD ∅ := by
  obtain ⟨s₁, hs₁, hc₁⟩ := @interPreds_some _ _ nodesF dom₁ l hex
  obtain ⟨s₂, hs₂, hc₂⟩ := @interPreds_some _ _ nodesF dom₂ l hex
  rw [hs₁, hs₂]
  intro x hx
  simp only [Option.getD_some] at hx ⊢
  rw [hc₂]
  intro p hp hpF
  exact h p hp hpF ((hc₁ x).mp hx p hp hpF)

theorem mem_foldl_insert {l todo : List α} {x : α} :
    x ∈ l.foldl (fun t s => List.insert s t) todo ↔ x ∈ todo ∨ x ∈ l := by
  induction l generalizing todo with
  | nil => simp
  | cons a l ih =>
    rw [List.foldl_cons, ih]
    simp only [List.mem_insert_iff, List.mem_cons]
    tauto

theorem nodup_foldl_insert {l todo : List α} (h : todo.Nodup) :
    (l.foldl (fun t s => List.insert s t) todo).Nodup := by
  induction l generalizing todo with
  | nil => exact h
  | cons a l ih => exact ih (h.insert)

theorem nodup_length_le_card {l : List α} {s : Finset α} (h : l.Nodup)
    (hsub : ∀ x ∈ l, x ∈ s) : l.length ≤ s.card := by
  rw [← List.toFinset_card_of_nodup h]
  exact Finset.card_le_card fun x hx => hsub x (List.mem_toFinset.mp hx)

theorem domPhi_cons {nodesF : Finset α} {dominators : α → Option (Finset α)} {node : α}
    {todo : List α} :
    domPhi nodesF dominators (node :: todo) = domPhi nodesF dominators todo + 1 := by
  unfold domPhi
  rw [List.length_cons]
  omega

theorem domLoop_main {nodesF : Finset α} {head : α} {prev_cb next_cb : α → List α}
    {T : α → α → Prop}
    (HP : ∀ n ∈ nodesF, n ≠ head → ∃ p ∈ prev_cb n, p ∈ nodesF)
    (HN : ∀ p ∈ nodesF, ∀ s ∈ next_cb p, s ∈ nodesF)
    (HPN : ∀ m p, p ∈ prev_cb m → p ∈ nodesF → m ∈ next_cb p)
    (HT : ∀ n ∈ nodesF, n ≠ head → ∀ D, T n D → D ≠ n →
      ∀ p ∈ prev_cb n, p ∈ nodesF → T p D) :
    ∀ fuel todo dominators, DomInv nodesF head prev_cb T todo dominators →
      domPhi nodesF dominators todo < fuel →
      ∃ domF, domLoop nodesF head prev_cb next_cb fuel todo dominators = some domF ∧
        DomInv nodesF head prev_cb T [] domF := by
  intro fuel
  induction fuel with
  | zero => intro todo dominators _ hphi; omega
  | succ fuel ih =>
    intro todo dominators hinv hphi
    match todo with
    | [] => exact ⟨dominators, by rw [domLoop], hinv⟩
    | node :: todo =>
      rw [domLoop]
      rw [domPhi_cons] at hphi
      by_cases hh : node = head
      · rw [if_pos hh]
        refine ih todo dominators ?_ (by omega)
        refine ⟨hinv.keys, hinv.todo_nodup.of_cons, ?_, hinv.head_mem, hinv.head_dom,
          hinv.upper, hinv.mono, ?_⟩
        · exact fun t ht => hinv.todo_sub t (List.mem_cons_of_mem _ ht)
        · intro m hm hmh hmt
          refine hinv.fixed m hm hmh ?_
          intro hmem
          rcases List.mem_cons.mp hmem with rfl | h
          · exact hmh hh
          · exact hmt h
      · rw [if_neg hh]
        have hnodeF : node ∈ nodesF := hinv.todo_sub node (List.mem_cons_self _ _)
        obtain ⟨nd, hnd, hndchar⟩ :=
          @interPreds_some _ _ nodesF dominators (prev_cb node) (HP node hnodeF hh)
        rw [hnd]
        dsimp only
        obtain ⟨snode, hsnode⟩ := Option.isSome_iff_exists.mp ((hinv.keys node).mpr hnodeF)
        have hdval : (dominators node).getD ∅ = snode := by rw [hsnode]; rfl
        have hmononode : insert node nd ⊆ snode := by
          have := hinv.mono node hnodeF hh
          rw [hnd] at this
          rw [← hdval]
          simpa using this
        by_cases hchange : some (insert node nd) = dominators node
        · rw [if_pos hchange]
          refine ih todo dominators ?_ (by omega)
          refine ⟨hinv.keys, hinv.todo_nodup.of_cons, ?_, hinv.head_mem, hinv.head_dom,
            hinv.upper, hinv.mono, ?_⟩
          · exact fun t ht => hinv.todo_sub t (List.mem_cons_of_mem _ ht)
          · intro m hm hmh hmt
            by_cases hmn : m = node
            · rw [hmn, ← hchange, hnd]
              rfl
            · refine hinv.fixed m hm hmh ?_
              intro hmem
              rcases List.mem_cons.mp hmem with h | h
              · exact hmn h
              · exact hmt h
        · rw [if_neg hchange]
          have hne : insert node nd ≠ snode := by
            intro heq
            exact hchange (by rw [heq, hsnode])
          have hss : insert node nd ⊂ snode := ssubset_of_subset_of_ne hmononode hne
          have hpoint : ∀ p, (Function.update dominators node (some (insert node nd)) p).getD ∅ ⊆
              (dominators p).getD ∅ := by
            intro p
            rcases eq_or_ne p node with rfl | hpn
            · rw [Function.update_same, hdval]
              simpa using hmononode
            · rw [Function.update_noteq hpn]
          have htodo'_mem : ∀ x, x ∈ (next_cb node).foldl (fun t s => List.insert s t) todo ↔
              x ∈ todo ∨ x ∈ next_cb node := fun x => mem_foldl_insert
          refine ih _ _ ?_ ?_
          · refine ⟨?_, nodup_foldl_insert hinv.todo_nodup.of_cons, ?_, hinv.head_mem, ?_,
              ?_, ?_, ?_⟩
            · intro n
              rcases eq_or_ne n node with rfl | hnn
              · rw [Function.update_same]
                simp [hnodeF]
              · rw [Function.update_noteq hnn]
                exact hinv.keys n
            · intro t ht
              rcases (htodo'_mem t).mp ht with h | h
              · exact hinv.todo_sub t (List.mem_cons_of_mem _ h)
              · exact HN node hnodeF t h
            · rw [Function.update_noteq (Ne.symm hh)]
              exact hinv.head_dom
            · intro m hm D hTD
              by_cases hmn : m = node
              · rw [hmn, Function.update_same, Option.getD_some]
                by_cases hDm : D = node
                · rw [hDm]
                  exact Finset.mem_insert_self _ _
                · refine Finset.mem_insert_of_mem ((hndchar D).mpr ?_)
                  intro p hp hpF
                  refine hinv.upper p hpF D (HT node hnodeF hh D ?_ hDm p hp hpF)
                  rw [← hmn]
                  exact hTD
              · rw [Function.update_noteq hmn]
                exact hinv.upper m hm D hTD
            · intro m hm hmh
              have hdval'm : (Function.update dominators node (some (insert node nd)) m).getD ∅ =
                  if m = node then insert node nd else (dominators m).getD ∅ := by
                rcases eq_or_ne m node with rfl | hmn
                · rw [Function.update_same, if_pos rfl, Option.getD_some]
                · rw [Function.update_noteq hmn, if_neg hmn]
              by_cases hex : ∃ p ∈ prev_cb m, p ∈ nodesF
              · have hmonoI := @interPreds_mono _ _ nodesF
                  (Function.update dominators node (some (insert node nd))) dominators
                  (prev_cb m) hex (fun p hp hpF => hpoint p)
                intro x hx
                rcases Finset.mem_insert.mp hx with hxm | hx'
                · rw [hxm, hdval'm]
                  by_cases hmn : m = node
                  · rw [if_pos hmn, hmn]
                    exact Finset.mem_insert_self _ _
                  · rw [if_neg hmn]
                    exact hinv.mono m hm hmh (Finset.mem_insert_self _ _)
                · have hx2 : x ∈ (interPreds nodesF dominators (prev_cb m)).getD ∅ :=
                    hmonoI hx'
                  rw [hdval'm]
                  by_cases hmn : m = node
                  · rw [if_pos hmn]
                    have hxnd : x ∈ nd := by
                      rw [hmn, hnd] at hx2
                      simpa using hx2
                    exact Finset.mem_insert_of_mem hxnd
                  · rw [if_neg hmn]
                    exact hinv.mono m hm hmh (Finset.mem_insert_of_mem hx2)
              · push_neg at hex
                have hnone : interPreds nodesF
                    (Function.update dominators node (some (insert node nd))) (prev_cb m) =
                    none := interPreds_of_all_not_mem hex
                rw [hnone]
                intro x hx
                simp only [Option.getD_none] at hx
                rcases Finset.mem_insert.mp hx with hxm | habs
                · rw [hxm, hdval'm]
                  by_cases hmn2 : m = node
                  · rw [if_pos hmn2, hmn2]
                    exact Finset.mem_insert_self _ _
                  · rw [if_neg hmn2]
                    exact hinv.mono m hm hmh (Finset.mem_insert_self m
                      ((interPreds nodesF dominators (prev_cb m)).getD ∅))
                · exact absurd habs (Finset.not_mem_empty _)
            · intro m hm hmh hmt
              have hmt_todo : m ∉ todo := fun h => hmt ((htodo'_mem m).mpr (Or.inl h))
              have hmt_next : m ∉ next_cb node := fun h => hmt ((htodo'_mem m).mpr (Or.inr h))
              have hcongr : interPreds nodesF
                  (Function.update dominators node (some (insert node nd))) (prev_cb m) =
                  interPreds nodesF dominators (prev_cb m) := by
                refine interPreds_congr ?_
                intro p hp hpF
                rcases eq_or_ne p node with rfl | hpn
                · exact absurd (HPN m p hp hpF) hmt_next
                · rw [Function.update_noteq hpn]
              rw [hcongr]
              by_cases hmn : m = node
              · rw [hmn, Function.update_same, hnd]
                rfl
              · rw [Function.update_noteq hmn]
                refine hinv.fixed m hm hmh ?_
                intro hmem
                rcases List.mem_cons.mp hmem with h | h
                · exact hmn h
                · exact hmt_todo h
          · have hsplit : nodesF.sum
                (fun n => ((Function.update dominators node (some (insert node nd)) n).getD ∅).card) +
                snode.card ≤ nodesF.sum (fun n => ((dominators n).getD ∅).card) +
                (insert node nd).card := by
              rw [Finset.sum_eq_add_sum_diff_singleton hnodeF
                  (fun n => ((Function.update dominators node (some (insert node nd)) n).getD ∅).card),
                Finset.sum_eq_add_sum_diff_singleton hnodeF
                  (fun n => ((dominators n).getD ∅).card)]
              have hrest : ∑ x ∈ nodesF \ {node},
                  ((Function.update dominators node (some (insert node nd)) x).getD ∅).card =
                  ∑ x ∈ nodesF \ {node}, ((dominators x).getD ∅).card := by
                refine Finset.sum_congr rfl ?_
                intro x hx
                rw [Finset.mem_sdiff, Finset.mem_singleton] at hx
                rw [Function.update_noteq hx.2]
              rw [hrest, Function.update_same, Option.getD_some, hdval]
              omega
            have hcard : (insert node nd).card < snode.card := Finset.card_lt_card hss
            have hlen : ((next_cb node).foldl (fun t s => List.insert s t) todo).length ≤
                nodesF.card := by
              refine nodup_length_le_card (nodup_foldl_insert hinv.todo_nodup.of_cons) ?_
              intro x hx
              rcases (htodo'_mem x).mp hx with h | h
              · exact hinv.todo_sub x (List.mem_cons_of_mem _ h)
              · exact HN node hnodeF x h
            unfold domPhi at hphi ⊢
            have hmul : (nodesF.card + 1) * (nodesF.sum
                (fun n => ((Function.update dominators node (some (insert node nd)) n).getD ∅).card)
                + 1) ≤
                (nodesF.card + 1) * (nodesF.sum fun n => ((dominators n).getD ∅).card) :=
              Nat.mul_le_mul_left _ (by omega)
            rw [Nat.mul_add, Nat.mul_one] at hmul
            omega

theorem chain_reaches {g : DiGraph α} (hg : g.WF) {h : α} :
    ∀ (p : List α) (a : α), p.head? = some a → Reaches g.nodes_succ h a →
      p.Chain' (fun x y => (x, y) ∈ g.edges) → ∀ x ∈ p, Reaches g.nodes_succ h x := by
  intro p
  induction p with
  | nil => intro a _ _ _ x hx; simp at hx
  | cons b q ih =>
    intro a ha hra hchain x hx
    have hba : b = a := by simpa using ha
    have hrb : Reaches g.nodes_succ h b := by rw [hba]; exact hra
    rcases List.mem_cons.mp hx with rfl | hxq
    · exact hrb
    · match q, hxq with
      | c :: r, hxq =>
        rw [List.chain'_cons] at hchain
        have hrc : Reaches g.nodes_succ h c :=
          Reaches.step hrb ((mem_succ_iff hg b c).mpr hchain.1)
        exact ih c rfl hrc hchain.2 x hxq

theorem path_elem_reaches {g : DiGraph α} (hg : g.WF) {h n : α} {p : List α}
    (hp : IsPath g h n p) : ∀ x ∈ p, Reaches g.nodes_succ h x :=
  chain_reaches hg p h hp.1 Reaches.refl hp.2.2

theorem path_reaches {g : DiGraph α} (hg : g.WF) {h n : α} {p : List α}
    (hp : IsPath g h n p) : Reaches g.nodes_succ h n :=
  path_elem_reaches hg hp n (List.mem_of_mem_getLast? hp.2.1)

theorem reaches_path {g : DiGraph α} (hg : g.WF) {h n : α}
    (hr : Reaches g.nodes_succ h n) : ∃ p, IsPath g h n p := by
  induction hr with
  | refl => exact ⟨[h], rfl, rfl, List.chain'_singleton h⟩
  | @step a b _ hs ih =>
    obtain ⟨p, hp⟩ := ih
    have hpne : p ≠ [] := by
      intro hnil
      rw [hnil] at hp
      exact absurd hp.1 (by simp)
    refine ⟨p ++ [b], ?_, List.getLast?_concat p, ?_⟩
    · rw [List.head?_append_of_ne_nil p hpne]
      exact hp.1
    · rw [List.chain'_append]
      refine ⟨hp.2.2, List.chain'_singleton _, ?_⟩
      intro x hx y hy
      have hxa : x = a := by
        rw [hp.2.1] at hx
        simpa [Option.mem_def] using hx.symm
      have hyb : y = b := by
        simpa [Option.mem_def] using hy.symm
      rw [hxa, hyb]
      exact (mem_succ_iff hg a b).mp hs

theorem compute_generic_main {U : Finset α} {head : α} {prev_cb next_cb : α → List α}
    {T : α → α → Prop}
    (HU : ∀ u ∈ insert head U, ∀ s ∈ next_cb u, s ∈ insert head U)
    (HA : ∀ a n, n ∈ next_cb a → a ∈ prev_cb n)
    (HB : ∀ m p, p ∈ prev_cb m → m ∈ next_cb p)
    (HT1 : ∀ n, Reaches next_cb head n → n ≠ head → ∀ D, T n D → D ≠ n →
      ∀ p ∈ prev_cb n, Reaches next_cb head p → T p D)
    (HT0 : ∀ n, Reaches next_cb head n → n ≠ head → ∀ D, T n D → Reaches next_cb head D)
    (HTh : ∀ D, T head D → D = head) :
    ∃ domF, compute_generic_dominators U head next_cb prev_cb next_cb = some domF ∧
      DomInv (reachable_nodes U head next_cb).toFinset head prev_cb T [] domF ∧
      (∀ n, n ∈ (reachable_nodes U head next_cb).toFinset ↔ Reaches next_cb head n) := by
  obtain ⟨hnodup, hiff, _⟩ := @reachable_nodes_main _ _ U next_cb head HU
  have hiffF : ∀ n, n ∈ (reachable_nodes U head next_cb).toFinset ↔ Reaches next_cb head n := by
    intro n
    rw [List.mem_toFinset]
    exact hiff n
  have hheadF : head ∈ (reachable_nodes U head next_cb).toFinset := (hiffF head).mpr Reaches.refl
  have HP : ∀ n ∈ (reachable_nodes U head next_cb).toFinset, n ≠ head →
      ∃ p ∈ prev_cb n, p ∈ (reachable_nodes U head next_cb).toFinset := by
    intro n hn hnh
    have hr := (hiffF n).mp hn
    cases hr with
    | refl => exact absurd rfl hnh
    | step ha hs => exact ⟨_, HA _ _ hs, (hiffF _).mpr ha⟩
  have HN : ∀ p ∈ (reachable_nodes U head next_cb).toFinset, ∀ s ∈ next_cb p,
      s ∈ (reachable_nodes U head next_cb).toFinset := by
    intro p hp s hs
    exact (hiffF s).mpr (Reaches.step ((hiffF p).mp hp) hs)
  have HPN : ∀ m p, p ∈ prev_cb m → p ∈ (reachable_nodes U head next_cb).toFinset →
      m ∈ next_cb p := fun m p hp _ => HB m p hp
  have HTm : ∀ n ∈ (reachable_nodes U head next_cb).toFinset, n ≠ head → ∀ D, T n D → D ≠ n →
      ∀ p ∈ prev_cb n, p ∈ (reachable_nodes U head next_cb).toFinset → T p D := by
    intro n hn hnh D hTD hDn p hp hpF
    exact HT1 n ((hiffF n).mp hn) hnh D hTD hDn p hp ((hiffF p).mp hpF)
  have hdval0 : ∀ n,
      ((Function.update
          (fun n => if n ∈ (reachable_nodes U head next_cb).toFinset
            then some (reachable_nodes U head next_cb).toFinset else none)
          head (some {head}) n).getD ∅) =
        if n = head then {head}
        else if n ∈ (reachable_nodes U head next_cb).toFinset
          then (reachable_nodes U head next_cb).toFinset else ∅ := by
    intro n
    by_cases hn : n = head
    · rw [hn, Function.update_same, if_pos rfl]
      rfl
    · rw [Function.update_noteq hn, if_neg hn]
      by_cases hmem : n ∈ (reachable_nodes U head next_cb).toFinset
      · rw [if_pos hmem, if_pos hmem]
        rfl
      · rw [if_neg hmem, if_neg hmem]
        rfl
  have hsub0 : ∀ p ∈ (reachable_nodes U head next_cb).toFinset,
      ((Function.update
          (fun n => if n ∈ (reachable_nodes U head next_cb).toFinset
            then some (reachable_nodes U head next_cb).toFinset else none)
          head (some {head}) p).getD ∅) ⊆ (reachable_nodes U head next_cb).toFinset := by
    intro p hp
    rw [hdval0]
    by_cases hph : p = head
    · rw [if_pos hph]
      intro x hx
      rw [Finset.mem_singleton] at hx
      rw [hx]
      exact hheadF
    · rw [if_neg hph, if_pos hp]
  have hinv0 : DomInv (reachable_nodes U head next_cb).toFinset head prev_cb T
      (reachable_nodes U head next_cb)
      (Function.update
        (fun n => if n ∈ (reachable_nodes U head next_cb).toFinset
          then some (reachable_nodes U head next_cb).toFinset else none)
        head (some {head})) := by
    refine ⟨?_, hnodup, ?_, hheadF, Function.update_same _ _ _, ?_, ?_, ?_⟩
    · intro n
      by_cases hn : n = head
      · rw [hn, Function.update_same]
        simp [hheadF]
      · rw [Function.update_noteq hn]
        by_cases hmem : n ∈ (reachable_nodes U head next_cb).toFinset
        · simp [hmem]
        · simp [hmem]
    · intro t ht
      exact List.mem_toFinset.mpr ht
    · intro n hn D hTD
      rw [hdval0]
      by_cases hnh : n = head
      · rw [if_pos hnh]
        rw [hnh] at hTD
        rw [Finset.mem_singleton]
        exact HTh D hTD
      · rw [if_neg hnh, if_pos hn]
        exact (hiffF D).mpr (HT0 n ((hiffF n).mp hn) hnh D hTD)
    · intro n hn hnh
      intro x hx
      rw [hdval0, if_neg hnh, if_pos hn]
      rcases Finset.mem_insert.mp hx with hxn | hxi
      · rw [hxn]
        exact hn
      · by_cases hex : ∃ p ∈ prev_cb n, p ∈ (reachable_nodes U head next_cb).toFinset
        · obtain ⟨s, hs, hchar⟩ := interPreds_some hex
          rw [hs] at hxi
          simp only [Option.getD_some] at hxi
          obtain ⟨p₀, hp₀, hp₀F⟩ := hex
          exact hsub0 p₀ hp₀F ((hchar x).mp hxi p₀ hp₀ hp₀F)
        · push_neg at hex
          rw [interPreds_of_all_not_mem hex] at hxi
          simp at hxi
    · intro n hn _ hnt
      exact absurd (List.mem_toFinset.mp hn) hnt
  have hphi0 : domPhi (reachable_nodes U head next_cb).toFinset
      (Function.update
        (fun n => if n ∈ (reachable_nodes U head next_cb).toFinset
          then some (reachable_nodes U head next_cb).toFinset else none)
        head (some {head})) (reachable_nodes U head next_cb) <
      ((reachable_nodes U head next_cb).length + 1) *
          ((reachable_nodes U head next_cb).length * (reachable_nodes U head next_cb).length) +
        (reachable_nodes U head next_cb).length + 1 := by
    have hcardF : (reachable_nodes U head next_cb).toFinset.card =
        (reachable_nodes U head next_cb).length := List.toFinset_card_of_nodup hnodup
    have hsum : ((reachable_nodes U head next_cb).toFinset.sum fun n =>
        ((Function.update
            (fun n => if n ∈ (reachable_nodes U head next_cb).toFinset
              then some (reachable_nodes U head next_cb).toFinset else none)
            head (some {head}) n).getD ∅).card) ≤
        (reachable_nodes U head next_cb).length * (reachable_nodes U head next_cb).length := by
      calc ((reachable_nodes U head next_cb).toFinset.sum fun n =>
            ((Function.update
                (fun n => if n ∈ (reachable_nodes U head next_cb).toFinset
                  then some (reachable_nodes U head next_cb).toFinset else none)
                head (some {head}) n).getD ∅).card) ≤
          (reachable_nodes U head next_cb).toFinset.sum fun _ =>
            (reachable_nodes U head next_cb).length := by
            refine Finset.sum_le_sum ?_
            intro i hi
            rw [← hcardF]
            exact Finset.card_le_card (hsub0 i hi)
        _ = (reachable_nodes U head next_cb).length * (reachable_nodes U head next_cb).length := by
            rw [Finset.sum_const, smul_eq_mul, hcardF]
    unfold domPhi
    rw [hcardF]
    have hmul : ((reachable_nodes U head next_cb).length + 1) *
        ((reachable_nodes U head next_cb).toFinset.sum fun n =>
          ((Function.update
              (fun n => if n ∈ (reachable_nodes U head next_cb).toFinset
                then some (reachable_nodes U head next_cb).toFinset else none)
              head (some {head}) n).getD ∅).card) ≤
        ((reachable_nodes U head next_cb).length + 1) *
          ((reachable_nodes U head next_cb).length * (reachable_nodes U head next_cb).length) :=
      Nat.mul_le_mul_left _ hsum
    omega
  obtain ⟨domF, hrun, hfin⟩ := domLoop_main HP HN HPN HTm _ _ _ hinv0 hphi0
  exact ⟨domF, hrun, hfin, hiffF⟩

theorem domFinal_complete {g : DiGraph α} (hg : g.WF) {head : α}
    {domF : α → Option (Finset α)}
    (hiff : ∀ n, n ∈ (reachable_sons g head).toFinset ↔ Reaches g.nodes_succ head n)
    (hhead : domF head = some {head})
    (hfix : ∀ n, Reaches g.nodes_succ head n → n ≠ head →
      (domF n).getD ∅ = insert n
        ((interPreds (reachable_sons g head).toFinset domF (g.nodes_pred n)).getD ∅)) :
    ∀ (p : List α) (n : α), IsPath g head n p → ∀ D, D ∈ (domF n).getD ∅ → D ∈ p := by
  intro p
  induction p using List.reverseRecOn with
  | nil =>
    intro n hp D _
    exact absurd hp.1 (by simp)
  | append_singleton q x ihq =>
    intro n hp D hD
    have hxn : x = n := Option.some.inj (by rw [← List.getLast?_concat q]; exact hp.2.1)
    by_cases hq : q = []
    · have hxh : x = head := by
        have h1 := hp.1
        rw [hq] at h1
        simp at h1
        exact h1
      have hnh : n = head := by rw [← hxn, hxh]
      rw [hnh, hhead] at hD
      simp only [Option.getD_some, Finset.mem_singleton] at hD
      rw [hD, hq]
      simp [hxh]
    · obtain ⟨m, hqm⟩ : ∃ m, q.getLast? = some m :=
        ⟨q.getLast hq, List.getLast?_eq_getLast q hq⟩
      have hchain := hp.2.2
      rw [List.chain'_append] at hchain
      obtain ⟨hcq, _, hlink⟩ := hchain
      have hedge : (m, x) ∈ g.edges := hlink m hqm x rfl
      have hqpath : IsPath g head m q :=
        ⟨by rw [← List.head?_append_of_ne_nil q hq]; exact hp.1, hqm, hcq⟩
      have hrn : Reaches g.nodes_succ head n := path_reaches hg hp
      have hrm : Reaches g.nodes_succ head m := path_reaches hg hqpath
      by_cases hnh : n = head
      · rw [hnh, hhead] at hD
        simp only [Option.getD_some, Finset.mem_singleton] at hD
        rw [hD]
        exact List.mem_of_mem_head? hp.1
      · rw [hfix n hrn hnh] at hD
        rcases Finset.mem_insert.mp hD with hDn | hDi
        · rw [hDn, ← hxn]
          exact List.mem_append_right _ (List.mem_singleton.mpr rfl)
        · have hmpred : m ∈ g.nodes_pred n := by
            rw [mem_pred_iff hg]
            rw [← hxn]
            exact hedge
          have hex : ∃ p' ∈ g.nodes_pred n, p' ∈ (reachable_sons g head).toFinset :=
            ⟨m, hmpred, (hiff m).mpr hrm⟩
          obtain ⟨s, hs, hchar⟩ := interPreds_some hex
          rw [hs] at hDi
          simp only [Option.getD_some] at hDi
          have hDm : D ∈ (domF m).getD ∅ :=
            (hchar D).mp hDi m hmpred ((hiff m).mpr hrm)
          exact List.mem_append_left _ (ihq m hqpath D hDm)

/-- C1: on every API-built graph, `compute_dominators(head)` succeeds and
returns a mapping whose domain is exactly the set of nodes reachable from
`head`, sending each reachable node `n` to the set of all nodes `D` such
that every path from `head` to `n` passes through `D` — a set that in
particular contains `head` and `n` itself. -/
theorem compute_dominators_correct (g : DiGraph α) (hg : g.WF) (head : α) :
    ∃ dom, g.compute_dominators head = some dom ∧
      (∀ n, (dom n).isSome ↔ Reaches g.successors head n) ∧
      (∀ n, Reaches g.successors head n →
        ∃ s, dom n = some s ∧ head ∈ s ∧ n ∈ s ∧
          (∀ D, D ∈ s ↔ ∀ p, IsPath g head n p → D ∈ p)) := by
  have HU : ∀ u ∈ insert head g.nodes, ∀ s ∈ g.nodes_succ u, s ∈ insert head g.nodes := by
    intro u _ s hs
    exact Finset.mem_insert_of_mem (hg.2.2 u s ((mem_succ_iff hg u s).mp hs)).2
  have HA : ∀ a n, n ∈ g.nodes_succ a → a ∈ g.nodes_pred n := by
    intro a n hn
    rw [mem_pred_iff hg]
    exact (mem_succ_iff hg a n).mp hn
  have HB : ∀ m p, p ∈ g.nodes_pred m → m ∈ g.nodes_succ p := by
    intro m p hp
    rw [mem_succ_iff hg]
    exact (mem_pred_iff hg p m).mp hp
  have HT1 : ∀ n, Reaches g.nodes_succ head n → n ≠ head →
      ∀ D, (∀ p, IsPath g head n p → D ∈ p) → D ≠ n →
      ∀ p ∈ g.nodes_pred n, Reaches g.nodes_succ head p →
        ∀ q, IsPath g head p q → D ∈ q := by
    intro n _ _ D hTD hDn pp hpp _ q hq
    have hqne : q ≠ [] := by
      intro hnil
      rw [hnil] at hq
      exact absurd hq.1 (by simp)
    have hqn : IsPath g head n (q ++ [n]) := by
      refine ⟨by rw [List.head?_append_of_ne_nil q hqne]; exact hq.1,
        List.getLast?_concat q, ?_⟩
      rw [List.chain'_append]
      refine ⟨hq.2.2, List.chain'_singleton _, ?_⟩
      intro x hx y hy
      have hxp : x = pp := by
        rw [hq.2.1] at hx
        simpa [Option.mem_def] using hx.symm
      have hyn : y = n := by simpa [Option.mem_def] using hy.symm
      rw [hxp, hyn]
      exact (mem_pred_iff hg pp n).mp hpp
    have hDq := hTD (q ++ [n]) hqn
    rcases List.mem_append.mp hDq with h | h
    · exact h
    · exact absurd (List.mem_singleton.mp h) hDn
  have HT0 : ∀ n, Reaches g.nodes_succ head n → n ≠ head →
      ∀ D, (∀ p, IsPath g head n p → D ∈ p) → Reaches g.nodes_succ head D := by
    intro n hrn _ D hTD
    obtain ⟨p, hp⟩ := reaches_path hg hrn
    exact path_elem_reaches hg hp D (hTD p hp)
  have HTh : ∀ D, (∀ p, IsPath g head head p → D ∈ p) → D = head := by
    intro D hTD
    have := hTD [head] ⟨rfl, rfl, List.chain'_singleton head⟩
    simpa using this
  obtain ⟨domF, hrun, hfin, hiffF⟩ := @compute_generic_main _ _ g.nodes head
    g.nodes_pred g.nodes_succ (fun n D => ∀ p, IsPath g head n p → D ∈ p) HU HA HB HT1 HT0 HTh
  refine ⟨domF, hrun, ?_, ?_⟩
  · intro n
    rw [hfin.keys n]
    exact hiffF n
  · intro n hrn
    have hnF : n ∈ (reachable_nodes g.nodes head g.nodes_succ).toFinset := (hiffF n).mpr hrn
    obtain ⟨s, hsome⟩ := Option.isSome_iff_exists.mp ((hfin.keys n).mpr hnF)
    have hdval : (domF n).getD ∅ = s := by rw [hsome]; rfl
    have hcomplete := domFinal_complete hg hiffF hfin.head_dom
      (fun m hrm hmh => hfin.fixed m ((hiffF m).mpr hrm) hmh (by simp))
    refine ⟨s, hsome, ?_, ?_, ?_⟩
    · rw [← hdval]
      refine hfin.upper n hnF head ?_
      intro p hp
      exact List.mem_of_mem_head? hp.1
    · rw [← hdval]
      refine hfin.upper n hnF n ?_
      intro p hp
      exact List.mem_of_mem_getLast? hp.2.1
    · intro D
      constructor
      · intro hD p hp
        refine hcomplete p n hp D ?_
        rw [hdval]
        exact hD
      · intro hTD
        rw [← hdval]
        exact hfin.upper n hnF D hTD

/-- C1 witness: the correctness statement instantiated on the chain graph
0 → 1 → 2 with head 0. -/
theorem compute_dominators_correct_witness :
    ∃ dom, gChain.compute_dominators 0 = some dom ∧
      (∀ n, (dom n).isSome ↔ Reaches gChain.successors 0 n) ∧
      (∀ n, Reaches gChain.successors 0 n →
        ∃ s, dom n = some s ∧ 0 ∈ s ∧ n ∈ s ∧
          (∀ D, D ∈ s ↔ ∀ p, IsPath gChain 0 n p → D ∈ p)) :=
  compute_dominators_correct gChain (WF_add_edge (WF_add_edge WF_empty 0 1) 1 2) 0

/-- C2: `compute_postdominators(leaf)` on `g` returns the same mapping as
`compute_dominators(leaf)` on the graph obtained from `g` by reversing
every edge (same nodes, each edge `(a,b)` turned into `(b,a)`): the two
entry points run the one generic algorithm with the direction callbacks
swapped. -/
theorem compute_postdominators_mirror (g : DiGraph α) (leaf : α) :
    g.compute_postdominators leaf = g.reverse.compute_dominators leaf ∧
    g.reverse.edges = g.edges.map (fun e => (e.2, e.1)) ∧
    g.reverse.nodes = g.nodes :=
  ⟨rfl, rfl, rfl⟩

/-- C3: on every API-built graph the internal assertion of the dominator
fixed point never fails when reached through `compute_dominators` or
`compute_postdominators` (both return an actual mapping), because every
reachable node other than the start has at least one predecessor — in the
chosen direction — inside the reachable universe. -/
theorem dominator_assert_never_fails (g : DiGraph α) (hg : g.WF) (h l : α) :
    (g.compute_dominators h).isSome ∧ (g.compute_postdominators l).isSome ∧
    (∀ n, Reaches g.successors h n → n ≠ h →
      ∃ p ∈ g.predecessors n, Reaches g.successors h p) ∧
    (∀ n, Reaches g.predecessors l n → n ≠ l →
      ∃ s ∈ g.successors n, Reaches g.predecessors l s) := by
  have HUs : ∀ u ∈ insert h g.nodes, ∀ s ∈ g.nodes_succ u, s ∈ insert h g.nodes := by
    intro u _ s hs
    exact Finset.mem_insert_of_mem (hg.2.2 u s ((mem_succ_iff hg u s).mp hs)).2
  have HUp : ∀ u ∈ insert l g.nodes, ∀ s ∈ g.nodes_pred u, s ∈ insert l g.nodes := by
    intro u _ s hs
    exact Finset.mem_insert_of_mem (hg.2.2 s u ((mem_pred_iff hg s u).mp hs)).1
  have HAs : ∀ a n, n ∈ g.nodes_succ a → a ∈ g.nodes_pred n := by
    intro a n hn
    rw [mem_pred_iff hg]
    exact (mem_succ_iff hg a n).mp hn
  have HBs : ∀ m p, p ∈ g.nodes_pred m → m ∈ g.nodes_succ p := by
    intro m p hp
    rw [mem_succ_iff hg]
    exact (mem_pred_iff hg p m).mp hp
  have HAp : ∀ a n, n ∈ g.nodes_pred a → a ∈ g.nodes_succ n := by
    intro a n hn
    rw [mem_succ_iff hg]
    exact (mem_pred_iff hg n a).mp hn
  have HBp : ∀ m p, p ∈ g.nodes_succ m → m ∈ g.nodes_pred p := by
    intro m p hp
    rw [mem_pred_iff hg]
    exact (mem_succ_iff hg m p).mp hp
  obtain ⟨domFs, hruns, _, _⟩ := @compute_generic_main _ _ g.nodes h
    g.nodes_pred g.nodes_succ (fun _ _ => False) HUs HAs HBs
    (fun _ _ _ D hf => absurd hf not_false) (fun _ _ _ D hf => absurd hf not_false)
    (fun D hf => absurd hf not_false)
  obtain ⟨domFp, hrunp, _, _⟩ := @compute_generic_main _ _ g.nodes l
    g.nodes_succ g.nodes_pred (fun _ _ => False) HUp HAp HBp
    (fun _ _ _ D hf => absurd hf not_false) (fun _ _ _ D hf => absurd hf not_false)
    (fun D hf => absurd hf not_false)
  refine ⟨by rw [show g.compute_dominators h =
      compute_generic_dominators g.nodes h g.nodes_succ g.nodes_pred g.nodes_succ from rfl,
      hruns]; rfl,
    by rw [show g.compute_postdominators l =
      compute_generic_dominators g.nodes l g.nodes_pred g.nodes_succ g.nodes_pred from rfl,
      hrunp]; rfl, ?_, ?_⟩
  · intro n hrn hnh
    cases hrn with
    | refl => exact absurd rfl hnh
    | step ha hs => exact ⟨_, HAs _ _ hs, ha⟩
  · intro n hrn hnl
    cases hrn with
    | refl => exact absurd rfl hnl
    | step ha hs => exact ⟨_, HAp _ _ hs, ha⟩

theorem del_edge_ok_of_sync {g : DiGraph α} (hs : g.Sync) {src dst : α}
    (h : (src, dst) ∈ g.edges) :
    g.del_edge src dst = Except.ok
      { nodes := g.nodes
        edges := g.edges.erase (src, dst)
        nodes_succ := Function.update g.nodes_succ src ((g.nodes_succ src).erase dst)
        nodes_pred := Function.update g.nodes_pred dst ((g.nodes_pred dst).erase src) } := by
  have hc : 0 < g.edges.count (src, dst) := List.count_pos_iff.mpr h
  have h1 : dst ∈ g.nodes_succ src := by
    rw [← List.count_pos_iff, ← hs.1]
    exact hc
  have h2 : src ∈ g.nodes_pred dst := by
    rw [← List.count_pos_iff, ← hs.2]
    exact hc
  simp [del_edge, h, h1, h2]

theorem Sync_del_edge {g : DiGraph α} (hs : g.Sync) (src dst : α) :
    Sync { nodes := g.nodes
           edges := g.edges.erase (src, dst)
           nodes_succ := Function.update g.nodes_succ src ((g.nodes_succ src).erase dst)
           nodes_pred := Function.update g.nodes_pred dst ((g.nodes_pred dst).erase src) } := by
  obtain ⟨h1, h2⟩ := hs
  constructor
  · intro a b
    dsimp only
    by_cases ha : a = src
    · rw [ha, Function.update_same]
      by_cases hb : b = dst
      · rw [hb, List.count_erase_self, List.count_erase_self, h1]
      · rw [List.count_erase_of_ne hb, List.count_erase_of_ne, h1]
        simp [Prod.ext_iff, hb]
    · rw [Function.update_noteq ha, List.count_erase_of_ne, h1]
      simp [Prod.ext_iff, ha]
  · intro a b
    dsimp only
    by_cases hb : b = dst
    · rw [hb, Function.update_same]
      by_cases ha : a = src
      · rw [ha, List.count_erase_self, List.count_erase_self, h2]
      · rw [List.count_erase_of_ne ha, List.count_erase_of_ne, h2]
        simp [Prod.ext_iff, ha]
    · rw [Function.update_noteq hb, List.count_erase_of_ne, h2]
      simp [Prod.ext_iff, hb]

theorem delPredFold {n : α} :
    ∀ (P : List α) (h : DiGraph α), h.Sync →
      (∀ q, P.count q ≤ (h.nodes_pred n).count q) →
      ∃ h', P.foldlM (fun acc p => acc.del_edge p n) h = Except.ok h' ∧ h'.Sync ∧
        h'.nodes = h.nodes ∧
        (∀ q, (h'.nodes_pred n).count q + P.count q = (h.nodes_pred n).count q) ∧
        (∀ m, m ≠ n → h'.nodes_pred m = h.nodes_pred m) ∧
        (∀ a b, b ≠ n → (h'.nodes_succ a).count b = (h.nodes_succ a).count b) ∧
        (∀ a, (h'.nodes_succ a).count n + P.count a = (h.nodes_succ a).count n) ∧
        (∀ a b, b ≠ n → h'.edges.count (a, b) = h.edges.count (a, b)) ∧
        (∀ a, h'.edges.count (a, n) + P.count a = h.edges.count (a, n)) := by
  intro P
  induction P with
  | nil =>
    intro h hs _
    exact ⟨h, by rw [List.foldlM_nil]; rfl, hs, rfl, by simp, by simp, by simp, by simp,
      by simp, by simp⟩
  | cons p P ih =>
    intro h hs hle
    have hpc : 0 < (h.nodes_pred n).count p := by
      have hc := hle p
      rw [List.count_cons] at hc
      simp only [beq_self_eq_true, if_true] at hc
      omega
    have hmem : (p, n) ∈ h.edges := by
      rw [← List.count_pos_iff, hs.2]
      exact hpc
    have hs1 := Sync_del_edge hs p n
    have hle1 : ∀ q, P.count q ≤
        ((({ nodes := h.nodes
             edges := h.edges.erase (p, n)
             nodes_succ := Function.update h.nodes_succ p ((h.nodes_succ p).erase n)
             nodes_pred := Function.update h.nodes_pred n ((h.nodes_pred n).erase p) } :
          DiGraph α).nodes_pred n).count q) := by
      intro q
      dsimp only
      rw [Function.update_same]
      have hc := hle q
      rw [List.count_cons] at hc
      by_cases hq : q = p
      · rw [hq, List.count_erase_self]
        rw [hq] at hc
        simp only [beq_self_eq_true, if_true] at hc
        omega
      · rw [List.count_erase_of_ne hq]
        have hne : ¬ (p == q) = true := by simp [Ne.symm hq]
        rw [if_neg hne] at hc
        omega
    obtain ⟨h', hrun, hs', hnodes, hpredn, hpredm, hsuccb, hsuccn, hedgeb, hedgen⟩ :=
      ih _ hs1 hle1
    refine ⟨h', ?_, hs', hnodes, ?_, ?_, ?_, ?_, ?_, ?_⟩
    · rw [List.foldlM_cons, del_edge_ok_of_sync hs hmem]
      exact hrun
    · intro q
      have h1 := hpredn q
      dsimp only at h1
      rw [Function.update_same] at h1
      rw [List.count_cons]
      by_cases hq : q = p
      · rw [hq] at h1 ⊢
        rw [List.count_erase_self] at h1
        simp only [beq_self_eq_true, if_true]
        omega
      · rw [List.count_erase_of_ne hq] at h1
        have hne : ¬ (p == q) = true := by simp [Ne.symm hq]
        rw [if_neg hne]
        omega
    · intro m hm
      have h1 := hpredm m hm
      dsimp only at h1
      rw [Function.update_noteq hm] at h1
      exact h1
    · intro a b hb
      have h1 := hsuccb a b hb
      dsimp only at h1
      by_cases ha : a = p
      · rw [ha] at h1 ⊢
        rw [Function.update_same, List.count_erase_of_ne hb] at h1
        exact h1
      · rw [Function.update_noteq ha] at h1
        exact h1
    · intro a
      have h1 := hsuccn a
      dsimp only at h1
      rw [List.count_cons]
      by_cases ha : a = p
      · rw [ha] at h1 ⊢
        rw [Function.update_same, List.count_erase_self] at h1
        have hcnt : 0 < (h.nodes_succ p).count n := by
          rw [← hs.1]
          rw [← List.count_pos_iff] at hmem
          exact hmem
        simp only [beq_self_eq_true, if_true]
        omega
      · rw [Function.update_noteq ha] at h1
        have hne : ¬ (p == a) = true := by simp [Ne.symm ha]
        rw [if_neg hne]
        omega
    · intro a b hb
      have h1 := hedgeb a b hb
      dsimp only at h1
      rw [List.count_erase_of_ne (by simp [Prod.ext_iff, hb])] at h1
      exact h1
    · intro a
      have h1 := hedgen a
      dsimp only at h1
      rw [List.count_cons]
      by_cases ha : a = p
      · rw [ha] at h1 ⊢
        rw [List.count_erase_self] at h1
        have hcnt : 0 < h.edges.count (p, n) := List.count_pos_iff.mpr hmem
        simp only [beq_self_eq_true, if_true]
        omega
      · rw [List.count_erase_of_ne (by simp [Prod.ext_iff, ha])] at h1
        have hne : ¬ (p == a) = true := by simp [Ne.symm ha]
        rw [if_neg hne]
        omega

theorem delSuccFold {n : α} :
    ∀ (S : List α) (h : DiGraph α), h.Sync →
      (∀ q, S.count q ≤ (h.nodes_succ n).count q) →
      ∃ h', S.foldlM (fun acc s => acc.del_edge n s) h = Except.ok h' ∧ h'.Sync ∧
        h'.nodes = h.nodes ∧
        (∀ q, (h'.nodes_succ n).count q + S.count q = (h.nodes_succ n).count q) ∧
        (∀ m, m ≠ n → h'.nodes_succ m = h.nodes_succ m) ∧
        (∀ a b, a ≠ n → (h'.nodes_pred b).count a = (h.nodes_pred b).count a) ∧
        (∀ b, (h'.nodes_pred b).count n + S.count b = (h.nodes_pred b).count n) ∧
        (∀ a b, a ≠ n → h'.edges.count (a, b) = h.edges.count (a, b)) ∧
        (∀ b, h'.edges.count (n, b) + S.count b = h.edges.count (n, b)) := by
  intro S
  induction S with
  | nil =>
    intro h hs _
    exact ⟨h, by rw [List.foldlM_nil]; rfl, hs, rfl, by simp, by simp, by simp, by simp,
      by simp, by simp⟩
  | cons s S ih =>
    intro h hs hle
    have hsc : 0 < (h.nodes_succ n).count s := by
      have hc := hle s
      rw [List.count_cons] at hc
      simp only [beq_self_eq_true, if_true] at hc
      omega
    have hmem : (n, s) ∈ h.edges := by
      rw [← List.count_pos_iff, hs.1]
      exact hsc
    have hs1 := Sync_del_edge hs n s
    have hle1 : ∀ q, S.count q ≤
        ((({ nodes := h.nodes
             edges := h.edges.erase (n, s)
             nodes_succ := Function.update h.nodes_succ n ((h.nodes_succ n).erase s)
             nodes_pred := Function.update h.nodes_pred s ((h.nodes_pred s).erase n) } :
          DiGraph α).nodes_succ n).count q) := by
      intro q
      dsimp only
      rw [Function.update_same]
      have hc := hle q
      rw [List.count_cons] at hc
      by_cases hq : q = s
      · rw [hq, List.count_erase_self]
        rw [hq] at hc
        simp only [beq_self_eq_true, if_true] at hc
        omega
      · rw [List.count_erase_of_ne hq]
        have hne : ¬ (s == q) = true := by simp [Ne.symm hq]
        rw [if_neg hne] at hc
        omega
    obtain ⟨h', hrun, hs', hnodes, hsuccn, hsuccm, hpreda, hpredn, hedgea, hedgen⟩ :=
      ih _ hs1 hle1
    refine ⟨h', ?_, hs', hnodes, ?_, ?_, ?_, ?_, ?_, ?_⟩
    · rw [List.foldlM_cons, del_edge_ok_of_sync hs hmem]
      exact hrun
    · intro q
      have h1 := hsuccn q
      dsimp only at h1
      rw [Function.update_same] at h1
      rw [List.count_cons]
      by_cases hq : q = s
      · rw [hq] at h1 ⊢
        rw [List.count_erase_self] at h1
        simp only [beq_self_eq_true, if_true]
        omega
      · rw [List.count_erase_of_ne hq] at h1
        have hne : ¬ (s == q) = true := by simp [Ne.symm hq]
        rw [if_neg hne]
        omega
    · intro m hm
      have h1 := hsuccm m hm
      dsimp only at h1
      rw [Function.update_noteq hm] at h1
      exact h1
    · intro a b ha
      have h1 := hpreda a b ha
      dsimp only at h1
      by_cases hb : b = s
      · rw [hb] at h1 ⊢
        rw [Function.update_same, List.count_erase_of_ne ha] at h1
        exact h1
      · rw [Function.update_noteq hb] at h1
        exact h1
    · intro b
      have h1 := hpredn b
      dsimp only at h1
      rw [List.count_cons]
      by_cases hb : b = s
      · rw [hb] at h1 ⊢
        rw [Function.update_same, List.count_erase_self] at h1
        have hcnt : 0 < (h.nodes_pred s).count n := by
          rw [← hs.2]
          exact List.count_pos_iff.mpr hmem
        simp only [beq_self_eq_true, if_true]
        omega
      · rw [Function.update_noteq hb] at h1
        have hne : ¬ (s == b) = true := by simp [Ne.symm hb]
        rw [if_neg hne]
        omega
    · intro a b ha
      have h1 := hedgea a b ha
      dsimp only at h1
      rw [List.count_erase_of_ne (by simp [Prod.ext_iff, ha])] at h1
      exact h1
    · intro b
      have h1 := hedgen b
      dsimp only at h1
      rw [List.count_cons]
      by_cases hb : b = s
      · rw [hb] at h1 ⊢
        rw [List.count_erase_self] at h1
        have hcnt : 0 < h.edges.count (n, s) := List.count_pos_iff.mpr hmem
        simp only [beq_self_eq_true, if_true]
        omega
      · rw [List.count_erase_of_ne (by simp [Prod.ext_iff, hb])] at h1
        have hne : ¬ (s == b) = true := by simp [Ne.symm hb]
        rw [if_neg hne]
        omega

/-- C8: on every API-built graph `del_node(n)` succeeds; afterwards `n` is
not a node, no edge references `n` as source or destination, and `n`
appears in no node's successor or predecessor list (parallel edges and
self-loops included); when `n` was absent the graph is returned exactly
unchanged. -/
theorem del_node_spec (g : DiGraph α) (hg : g.WF) (n : α) :
    ∃ g', g.del_node n = Except.ok g' ∧ n ∉ g'.nodes ∧
      (∀ e ∈ g'.edges, e.1 ≠ n ∧ e.2 ≠ n) ∧
      (∀ m, n ∉ g'.successors m ∧ n ∉ g'.predecessors m) ∧
      (n ∉ g.nodes → g' = g) := by
  have hsync : g.Sync := ⟨hg.1, hg.2.1⟩
  by_cases hmem : n ∈ g.nodes
  · have hsync1 : Sync ({ g with nodes := g.nodes.erase n } : DiGraph α) := hsync
    obtain ⟨g2, hrun1, hs2, hnodes2, hpredn2, hpredm2, hsuccb2, hsuccn2, hedgeb2, hedgen2⟩ :=
      delPredFold (n := n) (g.nodes_pred n) ({ g with nodes := g.nodes.erase n }) hsync1
        (fun q => le_refl _)
    have hedge_n0 : ∀ a, g2.edges.count (a, n) = 0 := by
      intro a
      have h1 := hedgen2 a
      dsimp only at h1
      have h2 : g.edges.count (a, n) = (g.nodes_pred n).count a := hg.2.1 a n
      omega
    have hsucc_n0 : ∀ a, (g2.nodes_succ a).count n = 0 := by
      intro a
      have h1 := hsuccn2 a
      dsimp only at h1
      have h2 : (g.nodes_succ a).count n = (g.nodes_pred n).count a := by
        rw [← hg.1, hg.2.1]
      omega
    obtain ⟨g3, hrun2, hs3, hnodes3, hsuccn3, hsuccm3, hpreda3, hpredn3, hedgea3, hedgen3⟩ :=
      delSuccFold (n := n) (g2.nodes_succ n) g2 hs2 (fun q => le_refl _)
    have hedge3_n0 : ∀ b, g3.edges.count (n, b) = 0 := by
      intro b
      have h1 := hedgen3 b
      have h2 : g2.edges.count (n, b) = (g2.nodes_succ n).count b := hs2.1 n b
      omega
    refine ⟨g3, ?_, ?_, ?_, ?_, fun habs => absurd hmem habs⟩
    · unfold del_node
      rw [if_pos hmem]
      simp only [predecessors, successors]
      rw [hrun1]
      exact hrun2
    · rw [hnodes3, hnodes2]
      simp
    · intro e he
      obtain ⟨a, b⟩ := e
      have hc : 0 < g3.edges.count (a, b) := List.count_pos_iff.mpr he
      constructor
      · intro h1'
        have h1 : a = n := h1'
        rw [h1] at hc
        have := hedge3_n0 b
        omega
      · intro h2'
        have h2 : b = n := h2'
        rw [h2] at hc
        by_cases ha : a = n
        · rw [ha] at hc
          have := hedge3_n0 n
          omega
        · rw [hedgea3 a n ha] at hc
          have := hedge_n0 a
          omega
    · intro m
      constructor
      · show n ∉ g3.nodes_succ m
        rw [← List.count_eq_zero]
        by_cases hm : m = n
        · rw [hm]
          have h1 := hsuccn3 n
          omega
        · rw [hsuccm3 m hm]
          exact hsucc_n0 m
      · show n ∉ g3.nodes_pred m
        rw [← List.count_eq_zero]
        have h1 := hpredn3 m
        have h2 : (g2.nodes_pred m).count n = g2.edges.count (n, m) := (hs2.2 n m).symm
        have h3 : g2.edges.count (n, m) = (g2.nodes_succ n).count m := hs2.1 n m
        omega
  · have hpn : g.nodes_pred n = [] := pred_eq_nil_of_not_mem hg hmem
    have hsn : g.nodes_succ n = [] := succ_eq_nil_of_not_mem hg hmem
    have hrun : g.del_node n = Except.ok g := by
      unfold del_node
      rw [if_neg hmem]
      simp only [predecessors, successors, hpn, List.foldlM_nil]
      show (g.nodes_succ n).foldlM (fun h s => h.del_edge n s) g = Except.ok g
      rw [hsn, List.foldlM_nil]
      rfl
    refine ⟨g, hrun, hmem, ?_, ?_, fun _ => rfl⟩
    · intro e he
      obtain ⟨a, b⟩ := e
      obtain ⟨ha, hb⟩ := hg.2.2 a b he
      constructor
      · intro h1'
        have h1 : a = n := h1'
        rw [h1] at ha
        exact hmem ha
      · intro h2'
        have h2 : b = n := h2'
        rw [h2] at hb
        exact hmem hb
    · intro m
      constructor
      · intro hn
        exact hmem (hg.2.2 m n ((mem_succ_iff hg m n).mp hn)).2
      · intro hn
        exact hmem (hg.2.2 n m ((mem_pred_iff hg n m).mp hn)).1

/-- C8 witness: deleting node 1 (which has a self-loop and sits between 0
and 2) from the self-loop graph, and deleting the absent node 7 from the
chain graph. -/
theorem del_node_spec_witness :
    (∃ g', gLoop.del_node 1 = Except.ok g' ∧ 1 ∉ g'.nodes ∧
      (∀ e ∈ g'.edges, e.1 ≠ 1 ∧ e.2 ≠ 1) ∧
      (∀ m, 1 ∉ g'.successors m ∧ 1 ∉ g'.predecessors m)) ∧
    (∃ g'', gChain.del_node 7 = Except.ok g'' ∧ g'' = gChain) := by
  have hwfL : gLoop.WF := WF_add_edge (WF_add_edge (WF_add_edge WF_empty 0 1) 1 1) 1 2
  have hwfC : gChain.WF := WF_add_edge (WF_add_edge WF_empty 0 1) 1 2
  obtain ⟨g', h1, h2, h3, h4, _⟩ := del_node_spec gLoop hwfL 1
  obtain ⟨g'', k1, _, _, _, k5⟩ := del_node_spec gChain hwfC 7
  exact ⟨⟨g', h1, h2, h3, h4⟩, ⟨g'', k1, k5 (by decide)⟩⟩

/-- C3 witness: both entry points return an actual mapping on the chain
graph, and the in-universe predecessor property instantiated at node 2. -/
theorem dominator_assert_never_fails_witness :
    (gChain.compute_dominators 0).isSome ∧ (gChain.compute_postdominators 2).isSome ∧
      (Reaches gChain.successors 0 2 → (2 : ℕ) ≠ 0 →
        ∃ p ∈ gChain.predecessors 2, Reaches gChain.successors 0 p) := by
  have h := dominator_assert_never_fails gChain
    (WF_add_edge (WF_add_edge WF_empty 0 1) 1 2) 0 2
  exact ⟨h.1, h.2.1, fun h1 h2 => h.2.2.1 2 h1 h2⟩

end DiGraph

end MiasmGraph
